import Mathlib

/-!
Verification development for the context-coordination core of the repository
(main source: `createStateContext` and its scoped setup functions).

The embedding models:
* JavaScript values flowing through the state channel (`JsVal`), including
  `undefined`, reference identity of objects (the `oid` field) and the
  `shallowequal` package's comparison;
* the per-context reactive pipelines (`createStateSubject`,
  `setupStatePublishing`, `createReducers$` + `setupStateRegistrationPublishing`,
  `createDispatch`, `setupActionDispatching`) as fold/step functions over the
  notification sequences the corresponding RxJS pipes consume;
* the destruction channel with its re-entrant synchronous fan-out
  (`createDestroy`, `createIsDestroyed$`, `setupSelfDestructionOnParentsDestruction`)
  as a fuelled small-step interpreter (`deliverStep` / `deliverFuel`) over the
  hub's subscriber list, faithful to RxJS `Subject` snapshot delivery,
  `filter` and `takeUntil`.
-/

/-- Model of a JavaScript value as it flows through the state channel.
`undefined` is JavaScript `undefined`; `prim n` stands for any non-object value; `obj oid fields`
is an object with identity `oid` and own enumerable properties `fields`.
Two objects are `===`-equal exactly when they are the same reference, in which
case they also have the same properties, so structural equality of `JsVal`
coincides with JavaScript `===` on realizable values. -/
inductive JsVal where
  | undefined : JsVal
  | prim : Nat → JsVal
  | obj : Nat → List (String × JsVal) → JsVal

mutual

def JsVal.decEq : (a b : JsVal) → Decidable (a = b)
  | .undefined, .undefined => .isTrue rfl
  | .undefined, .prim _ => .isFalse (fun h => JsVal.noConfusion h)
  | .undefined, .obj _ _ => .isFalse (fun h => JsVal.noConfusion h)
  | .prim _, .undefined => .isFalse (fun h => JsVal.noConfusion h)
  | .prim n, .prim m =>
    match Nat.decEq n m with
    | .isTrue h => .isTrue (by rw [h])
    | .isFalse h => .isFalse (fun hh => by cases hh; exact h rfl)
  | .prim _, .obj _ _ => .isFalse (fun h => JsVal.noConfusion h)
  | .obj _ _, .undefined => .isFalse (fun h => JsVal.noConfusion h)
  | .obj _ _, .prim _ => .isFalse (fun h => JsVal.noConfusion h)
  | .obj i fa, .obj j fb =>
    match Nat.decEq i j, JsVal.decEqFields fa fb with
    | .isTrue h1, .isTrue h2 => .isTrue (by rw [h1, h2])
    | .isFalse h1, _ => .isFalse (fun hh => by cases hh; exact h1 rfl)
    | .isTrue _, .isFalse h2 => .isFalse (fun hh => by cases hh; exact h2 rfl)

def JsVal.decEqFields : (a b : List (String × JsVal)) → Decidable (a = b)
  | [], [] => .isTrue rfl
  | [], _ :: _ => .isFalse (fun h => List.noConfusion h)
  | _ :: _, [] => .isFalse (fun h => List.noConfusion h)
  | (k1, v1) :: r1, (k2, v2) :: r2 =>
    match String.decEq k1 k2, JsVal.decEq v1 v2, JsVal.decEqFields r1 r2 with
    | .isTrue h1, .isTrue h2, .isTrue h3 => .isTrue (by rw [h1, h2, h3])
    | .isFalse h1, _, _ => .isFalse (fun hh => by cases hh; exact h1 rfl)
    | .isTrue _, .isFalse h2, _ => .isFalse (fun hh => by cases hh; exact h2 rfl)
    | .isTrue _, .isTrue _, .isFalse h3 => .isFalse (fun hh => by cases hh; exact h3 rfl)

end

instance : DecidableEq JsVal := JsVal.decEq

/-- JavaScript property read `v[k]` (absent property and non-object receiver
both give `undefined`). -/
def jsIndex (v : JsVal) (k : String) : JsVal :=
  match v with
  | .obj _ fields =>
    match fields.find? (fun p => p.1 = k) with
    | some p => p.2
    | none => .undefined
  | _ => .undefined

/-- JavaScript `Object.keys` (empty for non-objects). -/
def jsKeys (v : JsVal) : List String :=
  match v with
  | .obj _ fields => fields.map Prod.fst
  | _ => []

/-- The `hasOwnProperty` test used by `shallowequal`. -/
def hasOwn (fields : List (String × JsVal)) (k : String) : Bool :=
  (fields.find? (fun p => p.1 = k)).isSome

/-- The `shallowequal` package: `===` first, then, for two objects, equal key
counts and, for every key of the first, presence on the second with an
`===`-equal value. -/
def shallowEqual (a b : JsVal) : Bool :=
  if a = b then true
  else
    match a, b with
    | .obj _ fa, .obj _ fb =>
      decide ((fa.map Prod.fst).length = (fb.map Prod.fst).length) &&
        (fa.map Prod.fst).all (fun k => hasOwn fb k && decide (jsIndex a k = jsIndex b k))
    | _, _ => false

theorem shallowEqual_of_eq {a b : JsVal} (h : a = b) : shallowEqual a b = true := by
  subst h; simp [shallowEqual]

theorem shallowEqual_refl (a : JsVal) : shallowEqual a a = true :=
  shallowEqual_of_eq rfl

theorem mem_keys_of_hasOwn {fb : List (String × JsVal)} {k : String}
    (h : hasOwn fb k = true) : k ∈ fb.map Prod.fst := by
  rcases Option.isSome_iff_exists.mp h with ⟨p, hp⟩
  have hmem := List.mem_of_find?_eq_some hp
  have hk := List.find?_some hp
  simp only [decide_eq_true_eq] at hk
  subst hk
  exact List.mem_map_of_mem Prod.fst hmem

/-- Shallow equality is transitive (JavaScript `===` is transitive, and the
key/value conditions chain). -/
theorem shallowEqual_trans {a b c : JsVal} (hab : shallowEqual a b = true)
    (hbc : shallowEqual b c = true) : shallowEqual a c = true := by
  by_cases heab : a = b
  · subst heab; exact hbc
  by_cases hebc : b = c
  · subst hebc; exact hab
  by_cases heac : a = c
  · exact shallowEqual_of_eq heac
  unfold shallowEqual at hab hbc ⊢
  rw [if_neg heab] at hab
  rw [if_neg hebc] at hbc
  rw [if_neg heac]
  match a, b, c with
  | .obj ia fa, .obj ib fb, .obj ic fc =>
    simp only [Bool.and_eq_true, decide_eq_true_eq, List.all_eq_true] at hab hbc ⊢
    obtain ⟨hlen1, hkv1⟩ := hab
    obtain ⟨hlen2, hkv2⟩ := hbc
    refine ⟨hlen1.trans hlen2, ?_⟩
    intro k hk
    obtain ⟨hfind1, hval1⟩ := hkv1 k hk
    have hkb : k ∈ fb.map Prod.fst := mem_keys_of_hasOwn hfind1
    obtain ⟨hfind2, hval2⟩ := hkv2 k hkb
    exact ⟨hfind2, hval1.trans hval2⟩
  | .obj _ _, .obj _ _, .undefined => exact absurd hbc (by simp)
  | .obj _ _, .obj _ _, .prim _ => exact absurd hbc (by simp)
  | .obj _ _, .undefined, _ => exact absurd hab (by simp)
  | .obj _ _, .prim _, _ => exact absurd hab (by simp)
  | .undefined, _, _ => exact absurd hab (by simp)
  | .prim _, _, _ => exact absurd hab (by simp)

/-- Static configuration of one context (`StateBuildingBlock` without the
reducer/routing parts, which only matter for the reducer pipeline below). -/
structure BB where
  key : String
  stateKey : String
  defaultState : JsVal
  parentContextId : String
deriving DecidableEq

/-- The identity computed by `createStateContext`:
`id = parentContextId ++ "." ++ key`. -/
def BB.ctxId (bb : BB) : String := bb.parentContextId ++ "." ++ bb.key

/-- One notification relevant to a single context's state pipelines: a state
notification `{ contextId, state }` or a destruction notification
`{ contextId }`. -/
inductive HEvent where
  | stateN : String → JsVal → HEvent
  | destroyN : String → HEvent
deriving DecidableEq

/-- The `map` stage of `createStateSubject`, applied to the extracted slice
`contextState = notification.state[key]`:
`undefined` slice gives the default state; a slice with no defined `stateKey`
entry is used whole; otherwise the nested `stateKey` entry is used. -/
def deriveState (bb : BB) (contextState : JsVal) : JsVal :=
  if contextState = .undefined then bb.defaultState
  else if jsIndex contextState bb.stateKey = .undefined then contextState
  else jsIndex contextState bb.stateKey

/-- Written from the specification text, for comparison with `deriveState`:
if the key-indexed slice is undefined, the default state; else if the slice has
a defined entry at `stateKey`, that nested value; else the entire slice. -/
def specDeriveState (bb : BB) (slice : JsVal) : JsVal :=
  if slice = .undefined then bb.defaultState
  else if jsIndex slice bb.stateKey ≠ .undefined then jsIndex slice bb.stateKey
  else slice

/-- State of the `createStateSubject` pipeline: the `distinctUntilChanged`
memory (last value that passed), the `BehaviorSubject`'s current value (seeded
with `defaultState`), and whether the `takeUntil(isDestroyed$)` guard is still
open. -/
structure SubjState where
  lastEmitted : Option JsVal
  value : JsVal
  alive : Bool
deriving DecidableEq

def initSubj (bb : BB) : SubjState :=
  { lastEmitted := none, value := bb.defaultState, alive := true }

/-- The pass test of `distinctUntilChanged(shallowEqual)`: the first value
always passes; later values pass when not shallow-equal to the last passed
value. -/
def passFilter (s : SubjState) (mapped : JsVal) : Bool :=
  match s.lastEmitted with
  | none => true
  | some prev => !(shallowEqual prev mapped)

/-- One delivery step of the `createStateSubject` pipeline
(`filter(contextId === parentContextId)`, `map(state[key])`, `map(derive)`,
`distinctUntilChanged(shallowEqual)`, `takeUntil(isDestroyed$)`, subscriber =
the `BehaviorSubject`). Returns the new pipeline state and the values pushed to
the subject's subscribers by this delivery. -/
def subjStep (bb : BB) (s : SubjState) (e : HEvent) : SubjState × List JsVal :=
  match e with
  | .destroyN cid =>
    if cid = bb.ctxId then ({ s with alive := false }, []) else (s, [])
  | .stateN cid sval =>
    if s.alive = false then (s, [])
    else if cid ≠ bb.parentContextId then (s, [])
    else if passFilter s (deriveState bb (jsIndex sval bb.key)) then
      ({ lastEmitted := some (deriveState bb (jsIndex sval bb.key)),
         value := deriveState bb (jsIndex sval bb.key), alive := s.alive },
        [deriveState bb (jsIndex sval bb.key)])
    else (s, [])

/-- Run the `createStateSubject` pipeline from an arbitrary pipeline state over
a sequence of notifications, collecting everything pushed to subscribers. -/
def runSubjFrom (bb : BB) (s : SubjState) : List HEvent → SubjState × List JsVal
  | [] => (s, [])
  | e :: es =>
    let r1 := subjStep bb s e
    let r2 := runSubjFrom bb r1.1 es
    (r2.1, r1.2 ++ r2.2)

/-- Run the `createStateSubject` pipeline of a freshly created context. -/
def runSubj (bb : BB) (evs : List HEvent) : SubjState × List JsVal :=
  runSubjFrom bb (initSubj bb) evs

theorem runSubjFrom_append (bb : BB) (s : SubjState) (l1 l2 : List HEvent) :
    runSubjFrom bb s (l1 ++ l2) =
      ((runSubjFrom bb (runSubjFrom bb s l1).1 l2).1,
        (runSubjFrom bb s l1).2 ++ (runSubjFrom bb (runSubjFrom bb s l1).1 l2).2) := by
  induction l1 generalizing s with
  | nil => simp [runSubjFrom]
  | cons e es ih => simp [runSubjFrom, ih]

/-- The pipeline invariant: once something has been emitted, the subject's
current value is exactly the `distinctUntilChanged` memory. -/
def SubjInv (s : SubjState) : Prop :=
  ∀ l, s.lastEmitted = some l → s.value = l

/-- The possible shapes of a pipeline state after one step. -/
theorem subjStep_shape (bb : BB) (s : SubjState) (e : HEvent) :
    (subjStep bb s e).1 = s ∨ (subjStep bb s e).1 = { s with alive := false } ∨
      ∃ m, (subjStep bb s e).1 =
        { lastEmitted := some m, value := m, alive := s.alive } := by
  cases e with
  | destroyN cid =>
    by_cases h : cid = bb.ctxId
    · exact Or.inr (Or.inl (by simp [subjStep, h]))
    · exact Or.inl (by simp [subjStep, h])
  | stateN cid sval =>
    by_cases ha : s.alive = false
    · exact Or.inl (by simp [subjStep, ha])
    · by_cases hc : cid = bb.parentContextId
      · by_cases hp : passFilter s (deriveState bb (jsIndex sval bb.key)) = true
        · exact Or.inr (Or.inr ⟨deriveState bb (jsIndex sval bb.key),
            by simp [subjStep, ha, hc, hp]⟩)
        · exact Or.inl (by simp [subjStep, ha, hc, hp])
      · exact Or.inl (by simp [subjStep, ha, hc])

theorem subjStep_inv (bb : BB) (s : SubjState) (e : HEvent) (h : SubjInv s) :
    SubjInv (subjStep bb s e).1 := by
  rcases subjStep_shape bb s e with hs | hs | ⟨m, hs⟩ <;> rw [hs]
  · exact h
  · intro l hl; exact h l hl
  · intro l hl
    simp only [Option.some.injEq] at hl
    simp [hl]

theorem runSubjFrom_inv (bb : BB) (s : SubjState) (evs : List HEvent) (h : SubjInv s) :
    SubjInv (runSubjFrom bb s evs).1 := by
  induction evs generalizing s with
  | nil => simpa [runSubjFrom]
  | cons e es ih => exact ih _ (subjStep_inv bb s e h)

theorem runSubj_inv (bb : BB) (evs : List HEvent) : SubjInv (runSubj bb evs).1 :=
  runSubjFrom_inv bb _ evs (by intro l hl; simp [initSubj] at hl)

theorem deriveState_eq_spec (bb : BB) (cs : JsVal) :
    deriveState bb cs = specDeriveState bb cs := by
  unfold deriveState specDeriveState
  by_cases h1 : cs = .undefined
  · simp [h1]
  · by_cases h2 : jsIndex cs bb.stateKey = .undefined
    · simp [h1, h2]
    · simp [h1, h2]

theorem deriveState_ne_undef (bb : BB) (h : bb.defaultState ≠ .undefined) (cs : JsVal) :
    deriveState bb cs ≠ .undefined := by
  unfold deriveState
  by_cases h1 : cs = .undefined
  · simpa [h1] using h
  · by_cases h2 : jsIndex cs bb.stateKey = .undefined
    · simpa [h1, h2] using h1
    · simpa [h1, h2] using h2

/-- A step either delivers nothing and keeps the memory and the subject value,
or delivers exactly the derived value of a passing state notification. -/
theorem subjStep_out (bb : BB) (s : SubjState) (e : HEvent) :
    ((subjStep bb s e).2 = [] ∧ (subjStep bb s e).1.lastEmitted = s.lastEmitted ∧
        (subjStep bb s e).1.value = s.value) ∨
      ∃ cid sval, e = .stateN cid sval ∧ s.alive = true ∧ cid = bb.parentContextId ∧
        passFilter s (deriveState bb (jsIndex sval bb.key)) = true ∧
        (subjStep bb s e).2 = [deriveState bb (jsIndex sval bb.key)] ∧
        (subjStep bb s e).1.lastEmitted = some (deriveState bb (jsIndex sval bb.key)) ∧
        (subjStep bb s e).1.value = deriveState bb (jsIndex sval bb.key) := by
  cases e with
  | destroyN cid =>
    by_cases h : cid = bb.ctxId
    · exact Or.inl (by simp [subjStep, h])
    · exact Or.inl (by simp [subjStep, h])
  | stateN cid sval =>
    by_cases ha : s.alive = false
    · exact Or.inl (by simp [subjStep, ha])
    · by_cases hc : cid = bb.parentContextId
      · by_cases hp : passFilter s (deriveState bb (jsIndex sval bb.key)) = true
        · refine Or.inr ⟨cid, sval, rfl, ?_, hc, hp, ?_⟩
          · revert ha; cases s.alive <;> simp
          · simp [subjStep, ha, hc, hp]
        · exact Or.inl (by simp [subjStep, ha, hc, hp])
      · exact Or.inl (by simp [subjStep, ha, hc])

theorem subjStep_stateN_alive (bb : BB) (s : SubjState) (cid : String) (sval : JsVal) :
    (subjStep bb s (.stateN cid sval)).1.alive = s.alive := by
  by_cases ha : s.alive = false
  · simp [subjStep, ha]
  · by_cases hc : cid = bb.parentContextId
    · by_cases hp : passFilter s (deriveState bb (jsIndex sval bb.key)) = true
      · simp [subjStep, ha, hc, hp]
      · simp [subjStep, ha, hc, hp]
    · simp [subjStep, ha, hc]

/-- A live state notification addressed to the parent that is suppressed by
`distinctUntilChanged` leaves the pipeline untouched and delivers nothing. -/
theorem subjStep_suppressed (bb : BB) (s : SubjState) (cid : String) (sval : JsVal)
    (ha : s.alive = true) (hc : cid = bb.parentContextId) (prev : JsVal)
    (hle : s.lastEmitted = some prev)
    (hsh : shallowEqual prev (deriveState bb (jsIndex sval bb.key)) = true) :
    subjStep bb s (.stateN cid sval) = (s, []) := by
  have hp : passFilter s (deriveState bb (jsIndex sval bb.key)) = false := by
    simp [passFilter, hle, hsh]
  simp [subjStep, ha, hc, hp]

/-- After a live state notification addressed to the parent, the subject's value
is shallow-equal to the derived value, whether or not it was delivered. -/
theorem subjStep_value_shallow (bb : BB) (s : SubjState) (cid : String) (sval : JsVal)
    (hinv : SubjInv s) (ha : s.alive = true) (hc : cid = bb.parentContextId) :
    shallowEqual ((subjStep bb s (.stateN cid sval)).1.value)
      (deriveState bb (jsIndex sval bb.key)) = true := by
  by_cases hp : passFilter s (deriveState bb (jsIndex sval bb.key)) = true
  · have : (subjStep bb s (.stateN cid sval)).1.value = deriveState bb (jsIndex sval bb.key) := by
      simp [subjStep, ha, hc, hp]
    rw [this]; exact shallowEqual_refl _
  · cases hle : s.lastEmitted with
    | none => exact absurd (by simp [passFilter, hle]) hp
    | some prev =>
      have hsh : shallowEqual prev (deriveState bb (jsIndex sval bb.key)) = true := by
        simp only [passFilter, hle, Bool.not_eq_true'] at hp
        simpa using hp
      rw [subjStep_suppressed bb s cid sval ha hc prev hle hsh]
      have hv : s.value = prev := hinv prev hle
      simpa [hv] using hsh

theorem getLast?_or_append {α : Type} (l1 l2 : List α) :
    (l1 ++ l2).getLast? = (l2.getLast?).or l1.getLast? := by
  cases l2 with
  | nil => simp [Option.or_none]
  | cons x xs =>
    rw [List.getLast?_append_of_ne_nil l1 (by simp)]
    cases h : (x :: xs).getLast? with
    | some w => simp
    | none => simp [List.getLast?_eq_none_iff] at h

/-- The `distinctUntilChanged` memory always holds the most recently delivered
value (or the starting memory if nothing has been delivered yet). -/
theorem runSubjFrom_lastEmitted (bb : BB) (s : SubjState) (evs : List HEvent) :
    (runSubjFrom bb s evs).1.lastEmitted =
      ((runSubjFrom bb s evs).2.getLast?).or s.lastEmitted := by
  induction evs generalizing s with
  | nil => simp [runSubjFrom]
  | cons e es ih =>
    simp only [runSubjFrom]
    rw [ih, getLast?_or_append]
    rcases subjStep_out bb s e with ⟨h1, h2, _⟩ | ⟨cid, sval, _, _, _, _, h1, h2, _⟩
    · rw [h1, h2]; simp
    · rw [h1, h2]
      cases hg : (runSubjFrom bb (subjStep bb s e).1 es).2.getLast? <;> simp

/-- A downward state publication `{ contextId, state }` as published by
`setupStatePublishing`. -/
structure StateNotifOut where
  contextId : String
  state : JsVal
deriving DecidableEq

/-- One delivery of `setupStatePublishing`
(`contextState$` = `filter(contextId === parentContextId)` + `map(state[key])`,
then `takeUntil(isDestroyed$)`; the handler skips an `undefined` slice, skips
the single-level case `keys.length === 0 || (keys.length === 1 && keys[0] ===
stateKey)`, and otherwise publishes `{ contextId, state: contextState }`). -/
def setupStatePublishingStep (bb : BB) (alive : Bool) (cid : String) (sval : JsVal) :
    Option StateNotifOut :=
  if alive = false then none
  else if cid ≠ bb.parentContextId then none
  else if jsIndex sval bb.key = .undefined then none
  else if (jsKeys (jsIndex sval bb.key)).length = 0 ∨
      ((jsKeys (jsIndex sval bb.key)).length = 1 ∧
        (jsKeys (jsIndex sval bb.key)).head? = some bb.stateKey) then none
  else some { contextId := bb.ctxId, state := jsIndex sval bb.key }

theorem singleLevel_iff (l : List String) (k : String) :
    (l.length = 0 ∨ (l.length = 1 ∧ l.head? = some k)) ↔ (l = [] ∨ l = [k]) := by
  cases l with
  | nil => simp
  | cons x xs => cases xs <;> simp [eq_comm]

/-- The state-report notification type (`StateReportType`). -/
inductive SRType where
  | registration : SRType
  | deregistration : SRType
deriving DecidableEq

/-- Model of a reducer value. `base` stands for an individual transition
function; `combined` is the opaque result of the external `combineReducers`. -/
inductive RModel where
  | base : Nat → RModel
  | combined : List (String × RModel) → RModel

/-- A state-report notification
`{ type, parentContextId, key, reducer? }`. -/
structure RSNotif where
  rtype : SRType
  parentContextId : String
  key : String
  reducer : Option RModel

/-- Insert-or-replace preserving JavaScript object key order (assigning an
existing key keeps its position; a new key is appended). -/
def insertRep (k : String) (r : RModel) : List (String × RModel) → List (String × RModel)
  | [] => [(k, r)]
  | p :: rest => if p.1 = k then (k, r) :: rest else p :: insertRep k r rest

def eraseKey (k : String) : List (String × RModel) → List (String × RModel)
  | [] => []
  | p :: rest => if p.1 = k then rest else p :: eraseKey k rest

/-- Modelled from the spec: the reducer-merge utility (`UpdateReducers.ts` is
not under `src/`). The spec's contract: the mapping goes from child key to
transition function; a Registration supersedes any prior registration under the
same key; a Deregistration removes it. A Registration carrying no reducer
cannot contribute a transition function, so it leaves no entry under its key. -/
def updateReducers (reducers : List (String × RModel)) (n : RSNotif) :
    List (String × RModel) :=
  match n.rtype, n.reducer with
  | .registration, some r => insertRep n.key r reducers
  | _, _ => eraseKey n.key reducers

/-- Model of the external redux `combineReducers`: the opaque composite of a
keyed reducer mapping. -/
def combineReducers (reducers : List (String × RModel)) : RModel := .combined reducers

/-- The publication made by the `setupStateRegistrationPublishing` subscriber on
each mapping produced by the scan: a Registration addressed to the parent under
this context's `key`, carrying `combineReducers` of the mapping when it is
non-empty and `undefined` otherwise. -/
def setupStateRegistrationPublication (bb : BB) (reducers : List (String × RModel)) : RSNotif :=
  { rtype := .registration, parentContextId := bb.parentContextId, key := bb.key,
    reducer := if reducers.length > 0 then some (combineReducers reducers) else none }

/-- The `createReducers$` pipeline (`filter(parentContextId === contextId)` then
`scan(updateReducers, {})`) composed with the `setupStateRegistrationPublishing`
subscriber: the sequence of Registrations the context publishes while live. -/
def runReducersPipeline (bb : BB) (reducers : List (String × RModel)) :
    List RSNotif → List RSNotif
  | [] => []
  | n :: ns =>
    if n.parentContextId = bb.ctxId then
      setupStateRegistrationPublication bb (updateReducers reducers n) ::
        runReducersPipeline bb (updateReducers reducers n) ns
    else runReducersPipeline bb reducers ns

/-- The arrival-order fold of the reducer mapping, listing the mapping after
each notification (the spec's description of the scan). -/
def scanUpdateReducers (reducers : List (String × RModel)) :
    List RSNotif → List (List (String × RModel))
  | [] => []
  | n :: ns => updateReducers reducers n :: scanUpdateReducers (updateReducers reducers n) ns

/-- An action, with the routing tag `withRoute` can attach. -/
structure ActionM where
  routeTag : Option String
  body : Nat
deriving DecidableEq

/-- A dispatching-action notification `{ parentContextId, action }`. -/
structure DispatchNotif where
  parentContextId : String
  action : ActionM
deriving DecidableEq

/-- Modelled from the spec: `withRoute` (`RouteAction.ts` is not under `src/`)
tags the action with the given context identity. -/
def withRoute (contextId : String) (action : ActionM) : ActionM :=
  { action with routeTag := some contextId }

/-- The dispatch closure returned by `createDispatch(contextId)`: tag the action
with this context's identity when `isRoutedToThisContext`, then publish it
addressed to the parent. Note the closure consults no liveness state. -/
def createDispatch (contextId parentContextId : String) (action : ActionM)
    (isRoutedToThisContext : Bool) : DispatchNotif :=
  { parentContextId := parentContextId,
    action := if isRoutedToThisContext then withRoute contextId action else action }

/-- One delivery of the `setupActionDispatching` subscription
(`filter(parentContextId === contextId)`, `takeUntil(isDestroyed$)`; the handler
republishes the action unchanged, addressed to the parent). -/
def setupActionDispatchingStep (contextId parentContextId : String) (alive : Bool)
    (n : DispatchNotif) : Option DispatchNotif :=
  if alive = true ∧ n.parentContextId = contextId then
    some { parentContextId := parentContextId, action := n.action }
  else none

/-- C4: for every sequence of state-report notifications addressed to a
context, folded in arrival order into its reducer mapping, the context
publishes, per processed notification, a Registration to its parent under its
own key carrying `combineReducers` of the mapping when the mapping is
non-empty, and carrying no composite when the mapping is empty. -/
theorem claim_C4 (bb : BB) (notifs : List RSNotif) :
    (∀ reducers, runReducersPipeline bb reducers notifs =
      (scanUpdateReducers reducers
        (notifs.filter (fun n => n.parentContextId = bb.ctxId))).map
        (setupStateRegistrationPublication bb)) ∧
    (∀ reducers, setupStateRegistrationPublication bb reducers =
      { rtype := .registration, parentContextId := bb.parentContextId, key := bb.key,
        reducer := if reducers.isEmpty then none else some (combineReducers reducers) }) := by
  constructor
  · intro reducers
    induction notifs generalizing reducers with
    | nil => simp [runReducersPipeline, scanUpdateReducers]
    | cons n ns ih =>
      by_cases h : n.parentContextId = bb.ctxId
      · simp [runReducersPipeline, h, List.filter_cons, scanUpdateReducers, ih]
      · simp [runReducersPipeline, h, List.filter_cons, ih]
  · intro reducers
    cases reducers with
    | nil => simp [setupStateRegistrationPublication]
    | cons p rest => simp [setupStateRegistrationPublication]

/-- C5: the derivation stage of `createStateSubject` equals the specification
formula (undefined slice gives the default; a defined `stateKey` entry gives
the nested value; otherwise the whole slice), and after any live state
notification addressed to the parent, the context's current state is
shallow-equal to that formula applied to the key-indexed slice. -/
theorem claim_C5 (bb : BB) (evs : List HEvent) (cid : String) (sval : JsVal)
    (hc : cid = bb.parentContextId) (ha : (runSubj bb evs).1.alive = true) :
    (∀ cs, deriveState bb cs = specDeriveState bb cs) ∧
    shallowEqual ((runSubj bb (evs ++ [.stateN cid sval])).1.value)
      (specDeriveState bb (jsIndex sval bb.key)) = true := by
  refine ⟨deriveState_eq_spec bb, ?_⟩
  rw [← deriveState_eq_spec]
  have hrw : (runSubj bb (evs ++ [.stateN cid sval])).1 =
      (subjStep bb (runSubj bb evs).1 (.stateN cid sval)).1 := by
    rw [runSubj, runSubjFrom_append]
    rfl
  rw [hrw]
  exact subjStep_value_shallow bb _ cid sval (runSubj_inv bb evs) ha hc

/-- C6: with a defined configured default state, a freshly created context
reports exactly its default, and the current-state getter never returns
`undefined` after any sequence of notifications. -/
theorem claim_C6 (bb : BB) (h : bb.defaultState ≠ .undefined) :
    (runSubj bb []).1.value = bb.defaultState ∧
      ∀ evs : List HEvent, (runSubj bb evs).1.value ≠ .undefined := by
  constructor
  · rfl
  · intro evs
    have aux : ∀ (l : List HEvent) (s : SubjState), s.value ≠ .undefined →
        (runSubjFrom bb s l).1.value ≠ .undefined := by
      intro l
      induction l with
      | nil => intro s hs; simpa [runSubjFrom] using hs
      | cons e es ih =>
        intro s hs
        simp only [runSubjFrom]
        refine ih _ ?_
        rcases subjStep_out bb s e with ⟨_, _, hv⟩ | ⟨cid, sval, _, _, _, _, _, _, hv⟩
        · rw [hv]; exact hs
        · rw [hv]; exact deriveState_ne_undef bb h _
    exact aux evs _ (by simpa [initSubj] using h)

/-- C7: first, a pair of consecutive state notifications addressed to a live
context whose derived values are shallow-equal but not reference-identical
yields no subscriber delivery on the second; second, a value is delivered to
subscribers only if it is not shallow-equal to the previously delivered
value. -/
theorem claim_C7 (bb : BB) :
    (∀ (evs : List HEvent) (cid1 : String) (sval1 : JsVal) (cid2 : String) (sval2 : JsVal),
      cid1 = bb.parentContextId → cid2 = bb.parentContextId →
      (runSubj bb evs).1.alive = true →
      shallowEqual (deriveState bb (jsIndex sval1 bb.key))
        (deriveState bb (jsIndex sval2 bb.key)) = true →
      deriveState bb (jsIndex sval1 bb.key) ≠ deriveState bb (jsIndex sval2 bb.key) →
      (runSubj bb (evs ++ [.stateN cid1 sval1, .stateN cid2 sval2])).2 =
        (runSubj bb (evs ++ [.stateN cid1 sval1])).2) ∧
    (∀ (evs : List HEvent) (e : HEvent) (v : JsVal) (pre : List JsVal) (w : JsVal),
      (runSubj bb evs).2 = pre ++ [w] →
      (runSubj bb (evs ++ [e])).2 = (runSubj bb evs).2 ++ [v] →
      shallowEqual w v = false) := by
  constructor
  · intro evs cid1 sval1 cid2 sval2 hc1 hc2 ha hsh _hne
    rw [runSubj, runSubj, runSubjFrom_append, runSubjFrom_append]
    have hstep : ∀ l2 : List HEvent,
        runSubjFrom bb (runSubjFrom bb (initSubj bb) evs).1 l2 =
          runSubjFrom bb (runSubj bb evs).1 l2 := by intro l2; rfl
    rw [hstep, hstep]
    have hsupp : (subjStep bb (subjStep bb (runSubj bb evs).1 (.stateN cid1 sval1)).1
        (.stateN cid2 sval2)).2 = [] := by
      set s0 := (runSubj bb evs).1 with hs0
      by_cases hp : passFilter s0 (deriveState bb (jsIndex sval1 bb.key)) = true
      · have h1 : (subjStep bb s0 (.stateN cid1 sval1)).1 =
            { lastEmitted := some (deriveState bb (jsIndex sval1 bb.key)),
              value := deriveState bb (jsIndex sval1 bb.key), alive := s0.alive } := by
          simp [subjStep, ha, hc1, hp]
        rw [subjStep_suppressed bb _ cid2 sval2 (by rw [h1]; exact ha) hc2
          (deriveState bb (jsIndex sval1 bb.key)) (by rw [h1]) hsh]
      · cases hle : s0.lastEmitted with
        | none => exact absurd (by simp [passFilter, hle]) hp
        | some prev =>
          have hsh1 : shallowEqual prev (deriveState bb (jsIndex sval1 bb.key)) = true := by
            simp only [passFilter, hle, Bool.not_eq_true'] at hp
            simpa using hp
          have h1 : subjStep bb s0 (.stateN cid1 sval1) = (s0, []) :=
            subjStep_suppressed bb s0 cid1 sval1 ha hc1 prev hle hsh1
          rw [h1]
          exact congrArg Prod.snd (subjStep_suppressed bb s0 cid2 sval2 ha hc2 prev hle
            (shallowEqual_trans hsh1 hsh))
    simp only [runSubjFrom, hsupp]
    simp
  · intro evs e v pre w hpre hemit
    rw [runSubj, runSubjFrom_append] at hemit
    have hstep : runSubjFrom bb (runSubjFrom bb (initSubj bb) evs).1 [e] =
        runSubjFrom bb (runSubj bb evs).1 [e] := rfl
    rw [hstep] at hemit
    have hout : (subjStep bb (runSubj bb evs).1 e).2 = [v] := by
      have : (runSubj bb evs).2 ++ (runSubjFrom bb (runSubj bb evs).1 [e]).2 =
          (runSubj bb evs).2 ++ [v] := hemit
      have h2 := List.append_cancel_left this
      simpa [runSubjFrom] using h2
    rcases subjStep_out bb (runSubj bb evs).1 e with ⟨hnil, _, _⟩ |
      ⟨cid, sval, _, _, _, hp, hsing, _, _⟩
    · rw [hnil] at hout; exact absurd hout (by simp)
    · have hv : v = deriveState bb (jsIndex sval bb.key) := by
        rw [hsing] at hout
        exact (List.cons.injEq _ _ _ _ ▸ hout).1.symm
      have hle : (runSubj bb evs).1.lastEmitted = some w := by
        rw [runSubj, runSubjFrom_lastEmitted]
        have : (runSubjFrom bb (initSubj bb) evs).2 = pre ++ [w] := hpre
        rw [this, List.getLast?_concat]
        simp [initSubj]
      simp only [passFilter, hle, Bool.not_eq_true'] at hp
      rw [hv]
      simpa using hp

/-- C8: a received context slice is republished downward, tagged with the
context's own identity, exactly when the slice is defined and is not the
single-level case (its key list neither empty nor exactly the `stateKey`
entry); the only possible publication is that slice under the own identity. -/
theorem claim_C8 (bb : BB) (cid : String) (sval : JsVal) (hc : cid = bb.parentContextId) :
    (setupStatePublishingStep bb true cid sval =
        some { contextId := bb.ctxId, state := jsIndex sval bb.key } ↔
      (jsIndex sval bb.key ≠ .undefined ∧
        ¬(jsKeys (jsIndex sval bb.key) = [] ∨
          jsKeys (jsIndex sval bb.key) = [bb.stateKey]))) ∧
    (setupStatePublishingStep bb true cid sval = none ∨
      setupStatePublishingStep bb true cid sval =
        some { contextId := bb.ctxId, state := jsIndex sval bb.key }) := by
  have hstep : setupStatePublishingStep bb true cid sval =
      if jsIndex sval bb.key = .undefined then none
      else if jsKeys (jsIndex sval bb.key) = [] ∨
          jsKeys (jsIndex sval bb.key) = [bb.stateKey] then none
      else some { contextId := bb.ctxId, state := jsIndex sval bb.key } := by
    rw [setupStatePublishingStep]
    rw [if_neg (by simp), if_neg (by simp [hc])]
    by_cases h1 : jsIndex sval bb.key = .undefined
    · simp [h1]
    · rw [if_neg h1, if_neg h1]
      by_cases h2 : jsKeys (jsIndex sval bb.key) = [] ∨
          jsKeys (jsIndex sval bb.key) = [bb.stateKey]
      · rw [if_pos ((singleLevel_iff _ _).mpr h2), if_pos h2]
      · rw [if_neg (fun hh => h2 ((singleLevel_iff _ _).mp hh)), if_neg h2]
  rw [hstep]
  by_cases h1 : jsIndex sval bb.key = .undefined
  · simp [h1]
  · by_cases h2 : jsKeys (jsIndex sval bb.key) = [] ∨
        jsKeys (jsIndex sval bb.key) = [bb.stateKey]
    · simp [h1, h2]
    · simp [h1, h2]

/-- C9: a live dispatch publishes to the parent an action tagged with the
context's identity exactly when `routeToSelf` is true, and every inbound
dispatch notification addressed to the context is mirrored upward to the
parent with the action unchanged (no tag added). -/
theorem claim_C9 (contextId parentContextId : String) (a : ActionM) (r : Bool)
    (h : a.routeTag = none) :
    ((createDispatch contextId parentContextId a r).action.routeTag = some contextId ↔
      r = true) ∧
    (createDispatch contextId parentContextId a r).parentContextId = parentContextId ∧
    (∀ n : DispatchNotif, n.parentContextId = contextId →
      setupActionDispatchingStep contextId parentContextId true n =
        some { parentContextId := parentContextId, action := n.action }) := by
  refine ⟨?_, rfl, ?_⟩
  · cases r with
    | false => simp [createDispatch, h]
    | true => simp [createDispatch, withRoute]
  · intro n hn
    simp [setupActionDispatchingStep, hn]

/-- Concrete configuration used by the witnesses below. -/
def bbW : BB :=
  { key := "counter", stateKey := "value", defaultState := .prim 0, parentContextId := "root" }

/-- A concrete state payload whose `counter` slice nests a `value` entry. -/
def svalW : JsVal := .obj 0 [("counter", .obj 1 [("value", .prim 5), ("extra", .prim 9)])]

/-- A payload whose derived value is a fresh object shallow-equal to `sval2W`'s. -/
def sval1W : JsVal := .obj 0 [("counter", .obj 1 [("value", .obj 10 [("x", .prim 1)])])]

/-- Same derived contents as `sval1W` but under different object identities. -/
def sval2W : JsVal := .obj 2 [("counter", .obj 3 [("value", .obj 11 [("x", .prim 1)])])]

theorem claim_C5_witness :
    ("root" : String) = bbW.parentContextId ∧ (runSubj bbW []).1.alive = true ∧
      ((∀ cs, deriveState bbW cs = specDeriveState bbW cs) ∧
        shallowEqual ((runSubj bbW ([] ++ [.stateN "root" svalW])).1.value)
          (specDeriveState bbW (jsIndex svalW bbW.key)) = true) :=
  ⟨rfl, rfl, claim_C5 bbW [] "root" svalW rfl rfl⟩

theorem claim_C6_witness :
    bbW.defaultState ≠ .undefined ∧
      ((runSubj bbW []).1.value = bbW.defaultState ∧
        ∀ evs : List HEvent, (runSubj bbW evs).1.value ≠ .undefined) :=
  ⟨by decide, claim_C6 bbW (by decide)⟩

theorem claim_C7_witness :
    (("root" : String) = bbW.parentContextId ∧ (runSubj bbW []).1.alive = true ∧
      shallowEqual (deriveState bbW (jsIndex sval1W bbW.key))
        (deriveState bbW (jsIndex sval2W bbW.key)) = true ∧
      deriveState bbW (jsIndex sval1W bbW.key) ≠ deriveState bbW (jsIndex sval2W bbW.key)) ∧
    (runSubj bbW ([] ++ [.stateN "root" sval1W, .stateN "root" sval2W])).2 =
      (runSubj bbW ([] ++ [.stateN "root" sval1W])).2 :=
  ⟨⟨rfl, rfl, by decide, by decide⟩,
    (claim_C7 bbW).1 [] "root" sval1W "root" sval2W rfl rfl rfl (by decide) (by decide)⟩

theorem claim_C8_witness :
    ("root" : String) = bbW.parentContextId ∧
      ((setupStatePublishingStep bbW true "root" svalW =
          some { contextId := bbW.ctxId, state := jsIndex svalW bbW.key } ↔
        (jsIndex svalW bbW.key ≠ .undefined ∧
          ¬(jsKeys (jsIndex svalW bbW.key) = [] ∨
            jsKeys (jsIndex svalW bbW.key) = [bbW.stateKey]))) ∧
      (setupStatePublishingStep bbW true "root" svalW = none ∨
        setupStatePublishingStep bbW true "root" svalW =
          some { contextId := bbW.ctxId, state := jsIndex svalW bbW.key })) :=
  ⟨rfl, claim_C8 bbW "root" svalW rfl⟩

/-- Concrete action used by the dispatch witnesses. -/
def actW : ActionM := { routeTag := none, body := 7 }

theorem claim_C9_witness :
    actW.routeTag = none ∧
      (((createDispatch "root.counter" "root" actW true).action.routeTag =
          some "root.counter" ↔ true = true) ∧
        (createDispatch "root.counter" "root" actW true).parentContextId = "root" ∧
        (∀ n : DispatchNotif, n.parentContextId = "root.counter" →
          setupActionDispatchingStep "root.counter" "root" true n =
            some { parentContextId := "root", action := n.action })) :=
  ⟨rfl, claim_C9 "root.counter" "root" actW true rfl⟩

/-- A notification on the hub, as recorded in the hub history (newest first):
a Deregistration state-report `{ parentContextId, key }` published by
`createDestroy`, a destruction notification `{ contextId }`, or a
dispatching-action notification. Registrations republished by still-live
reducer pipelines in reaction to a Deregistration are outside this model's
scope: they are neither Deregistrations nor destruction notifications, the two
event classes the destruction claims count, and they feed back only into the
state-report channel. -/
inductive HubEv where
  | dereg : String → String → HubEv
  | destroyed : String → HubEv
  | dispatched : DispatchNotif → HubEv
deriving DecidableEq

/-- One context's presence on the destruction channel: its identity, its
parent's identity, its configuration key, and whether its subscriptions are
still open. A context's `takeUntil(isDestroyed$)` notifiers and the
`setupSelfDestructionOnParentsDestruction` source subscription all close
together when a destruction notification carrying the own identity is
delivered, and within the processing of one notification by one context no
re-entrant publish can intervene between those closures (the own-identity
filter and the parent-identity filter are disjoint because the own identity
strictly extends the parent identity), so a single `alive` flag models them
faithfully. -/
structure DSub where
  ownId : String
  parentId : String
  key : String
  alive : Bool
deriving DecidableEq

/-- The hub with its destruction-channel subscribers (in subscription order,
parents before children as produced by `createStateContext` of each child
receiving its parent's already-computed identity) and the history of published
notifications, newest first. -/
structure SysState where
  subs : List DSub
  log : List HubEv
deriving DecidableEq

def findSub (st : SysState) (sid : String) : Option DSub :=
  st.subs.find? (fun s => s.ownId = sid)

def killSub (st : SysState) (sid : String) : SysState :=
  { st with subs := st.subs.map (fun s => if s.ownId = sid then { s with alive := false } else s) }

def pushLog (ev : HubEv) (st : SysState) : SysState := { st with log := ev :: st.log }

def aliveCount (st : SysState) : Nat := (st.subs.filter (fun s => s.alive)).length

/-- Deliver a destruction notification carrying `cid` to the remaining snapshot
`pending` of the destruction channel's subscriber list (RxJS `Subject.next`
iterates a snapshot of the observers; a subscriber closed meanwhile discards
the delivery, which the current-state `alive` check models). Per subscriber:
a match on the own identity closes its subscriptions; a match on the parent
identity while still subscribed runs the handler, `destroy()` — publish a
Deregistration state-report, then publish a destruction notification for the
own identity, delivered re-entrantly through `recur` before the outer fan-out
resumes. -/
def deliverStep (recur : String → SysState → Option SysState) (cid : String) :
    List String → SysState → Option SysState
  | [], st => some st
  | sid :: rest, st =>
    match findSub st sid with
    | none => deliverStep recur cid rest st
    | some s =>
      if cid = s.ownId then deliverStep recur cid rest (killSub st sid)
      else if cid = s.parentId ∧ s.alive = true then
        match recur s.ownId
            (pushLog (.destroyed s.ownId) (pushLog (.dereg s.parentId s.key) st)) with
        | none => none
        | some st2 => deliverStep recur cid rest st2
      else deliverStep recur cid rest st

/-- Fuelled fan-out of a destruction notification (the fuel only bounds the
nesting depth of re-entrant publishes, which the cascade theorems discharge
with any fuel of at least the number of live contexts plus one). -/
def deliverFuel : Nat → String → SysState → Option SysState
  | 0, _, _ => none
  | fuel + 1, cid, st => deliverStep (deliverFuel fuel) cid (st.subs.map DSub.ownId) st

/-- `destructionPublisher.publish({ contextId: cid })`: record the notification
and fan it out. -/
def publishDestruction (fuel : Nat) (cid : String) (st : SysState) : Option SysState :=
  deliverFuel fuel cid (pushLog (.destroyed cid) st)

/-- The closure returned by `createDestroy(contextId)`: publish a Deregistration
state-report `{ parentContextId, key }`, then publish a destruction
notification for the own identity. The closure consults no liveness state. -/
def createDestroyCall (fuel : Nat) (parentContextId key contextId : String)
    (st : SysState) : Option SysState :=
  publishDestruction fuel contextId (pushLog (.dereg parentContextId key) st)

/-- The closure returned by `createDispatch(contextId)`, acting on the hub:
publish a dispatching-action notification addressed to the parent. The closure
consults no liveness state. -/
def createDispatchCall (contextId parentContextId : String) (action : ActionM)
    (isRoutedToThisContext : Bool) (st : SysState) : SysState :=
  pushLog (.dispatched (createDispatch contextId parentContextId action isRoutedToThisContext)) st

/-- No subscriber on the destruction channel with identity `cid` is still
live (also vacuously true when no such subscriber exists). -/
def ownerDead (cid : String) (st : SysState) : Prop :=
  ∀ s ∈ st.subs, s.ownId = cid → s.alive = false

instance (cid : String) (st : SysState) : Decidable (ownerDead cid st) := by
  unfold ownerDead; infer_instance

/-- The identity/parent skeleton of the subscriber list. -/
def skel (st : SysState) : List (String × String) :=
  st.subs.map (fun s => (s.ownId, s.parentId))

/-- `DescIn sk c d`: `d` is a strict descendant of `c` in the skeleton
(`(ownId, parentId)` pairs). -/
inductive DescIn : List (String × String) → String → String → Prop where
  | child : ∀ {sk : List (String × String)} {c d : String}, (d, c) ∈ sk → DescIn sk c d
  | step : ∀ {sk : List (String × String)} {c m d : String},
      DescIn sk c m → (d, m) ∈ sk → DescIn sk c d

/-- `c` and its whole subtree are destroyed: dead on the channel and with their
destruction notifications in the hub history. -/
def SubtreeDead (c : String) (st : SysState) : Prop :=
  ownerDead c st ∧ (HubEv.destroyed c) ∈ st.log ∧
    ∀ d, DescIn (skel st) c d → ownerDead d st ∧ (HubEv.destroyed d) ∈ st.log

/-- Every already-dead strict descendant of `c` has a fully destroyed
subtree (the cascade invariant between publishes). -/
def GoodBelow (c : String) (st : SysState) : Prop :=
  ∀ u, DescIn (skel st) c u → ownerDead u st → SubtreeDead u st

/-- Pointwise evolution of one subscriber: identity fields unchanged, liveness
only ever lost. -/
def SubMono (s' s : DSub) : Prop :=
  s'.ownId = s.ownId ∧ s'.parentId = s.parentId ∧ s'.key = s.key ∧
    (s'.alive = true → s.alive = true)

/-- Evolution of the hub state: pointwise subscriber evolution and the history
only growing. -/
def SysMono (st' st : SysState) : Prop :=
  List.Forall₂ SubMono st'.subs st.subs ∧ ∃ pre, st'.log = pre ++ st.log

/-- Wellformedness of the subscriber list: identities are computed as
`parentContextId ++ "." ++ key`, are pairwise distinct, and every context was
subscribed before its children (so its entries precede theirs in the snapshot
order). -/
structure WFS (st : SysState) : Prop where
  ownEq : ∀ s ∈ st.subs, s.ownId = s.parentId ++ "." ++ s.key
  nodupIds : (st.subs.map DSub.ownId).Nodup
  childrenAfter : ∀ s ∈ st.subs, ∃ l₁ l₂,
    st.subs.map DSub.ownId = l₁ ++ s.ownId :: l₂ ∧
      ∀ t ∈ st.subs, t.parentId = s.ownId → t.ownId ∈ l₂

theorem forall₂_mem_left {α β : Type} {R : α → β → Prop} {l1 : List α} {l2 : List β}
    (h : List.Forall₂ R l1 l2) : ∀ a ∈ l1, ∃ b ∈ l2, R a b := by
  induction h with
  | nil => intro a ha; cases ha
  | cons hR _ ih =>
    intro a ha
    rcases List.mem_cons.mp ha with rfl | ha
    · exact ⟨_, List.mem_cons_self _ _, hR⟩
    · rcases ih a ha with ⟨b, hb, hab⟩
      exact ⟨b, List.mem_cons_of_mem _ hb, hab⟩

theorem forall₂_mem_right {α β : Type} {R : α → β → Prop} {l1 : List α} {l2 : List β}
    (h : List.Forall₂ R l1 l2) : ∀ b ∈ l2, ∃ a ∈ l1, R a b := by
  induction h with
  | nil => intro b hb; cases hb
  | cons hR _ ih =>
    intro b hb
    rcases List.mem_cons.mp hb with rfl | hb
    · exact ⟨_, List.mem_cons_self _ _, hR⟩
    · rcases ih b hb with ⟨a, ha, hab⟩
      exact ⟨a, List.mem_cons_of_mem _ ha, hab⟩

theorem forall₂_trans {α : Type} {R : α → α → Prop} (hR : Transitive R) :
    ∀ {l1 l2 l3 : List α}, List.Forall₂ R l1 l2 → List.Forall₂ R l2 l3 →
      List.Forall₂ R l1 l3 := by
  intro l1 l2 l3 h12
  induction h12 generalizing l3 with
  | nil => intro h; cases h; exact List.Forall₂.nil
  | cons hab h ih =>
    intro h23
    cases h23 with
    | cons hbc h2 => exact List.Forall₂.cons (hR hab hbc) (ih h2)

theorem subMono_refl (s : DSub) : SubMono s s := ⟨rfl, rfl, rfl, id⟩

theorem subMono_trans : Transitive SubMono := by
  intro a b c hab hbc
  exact ⟨hab.1.trans hbc.1, hab.2.1.trans hbc.2.1, hab.2.2.1.trans hbc.2.2.1,
    fun h => hbc.2.2.2 (hab.2.2.2 h)⟩

theorem sysMono_refl (st : SysState) : SysMono st st :=
  ⟨List.forall₂_same.mpr (fun s _ => subMono_refl s), [], rfl⟩

theorem sysMono_trans {st1 st2 st3 : SysState} (h12 : SysMono st1 st2)
    (h23 : SysMono st2 st3) : SysMono st1 st3 := by
  refine ⟨forall₂_trans subMono_trans h12.1 h23.1, ?_⟩
  rcases h12.2 with ⟨p1, hp1⟩
  rcases h23.2 with ⟨p2, hp2⟩
  exact ⟨p1 ++ p2, by rw [hp1, hp2, List.append_assoc]⟩

theorem forall₂_map_self {α : Type} {R : α → α → Prop} (f : α → α)
    (hf : ∀ x, R (f x) x) (l : List α) : List.Forall₂ R (l.map f) l := by
  induction l with
  | nil => exact List.Forall₂.nil
  | cons s rest ih => exact List.Forall₂.cons (hf s) ih

theorem killSub_subs_forall₂ (st : SysState) (sid : String) :
    List.Forall₂ SubMono (killSub st sid).subs st.subs := by
  refine forall₂_map_self _ (fun s => ?_) st.subs
  by_cases h : s.ownId = sid
  · rw [if_pos h]
    exact ⟨rfl, rfl, rfl, fun hh => by simp at hh⟩
  · rw [if_neg h]
    exact subMono_refl s

theorem killSub_mono (st : SysState) (sid : String) : SysMono (killSub st sid) st :=
  ⟨killSub_subs_forall₂ st sid, [], rfl⟩

theorem killSub_log (st : SysState) (sid : String) : (killSub st sid).log = st.log := rfl

theorem killSub_ownerDead (st : SysState) (sid : String) : ownerDead sid (killSub st sid) := by
  intro s' hs' ho
  rcases List.mem_map.mp hs' with ⟨s, _, rfl⟩
  by_cases h : s.ownId = sid
  · simp [h]
  · simp only [if_neg h] at ho ⊢
    exact absurd ho h

theorem killSub_mem_of_ne (st : SysState) (sid : String) {s : DSub} (hs : s ∈ st.subs)
    (h : s.ownId ≠ sid) : s ∈ (killSub st sid).subs := by
  have : (if s.ownId = sid then { s with alive := false } else s) = s := if_neg h
  exact this ▸ List.mem_map_of_mem _ hs

theorem pushLog_mono (ev : HubEv) (st : SysState) : SysMono (pushLog ev st) st :=
  ⟨List.forall₂_same.mpr (fun s _ => subMono_refl s), [ev], rfl⟩

theorem pushLog_subs (ev : HubEv) (st : SysState) : (pushLog ev st).subs = st.subs := rfl

theorem mono_log_mem {st' st : SysState} (h : SysMono st' st) {ev : HubEv}
    (hm : ev ∈ st.log) : ev ∈ st'.log := by
  rcases h.2 with ⟨pre, hp⟩
  rw [hp]
  exact List.mem_append_right pre hm

theorem mono_ownerDead {st' st : SysState} (h : SysMono st' st) {x : String}
    (hd : ownerDead x st) : ownerDead x st' := by
  intro s' hs' ho
  rcases forall₂_mem_left h.1 s' hs' with ⟨s, hs, hm⟩
  cases hv : s'.alive with
  | false => rfl
  | true =>
    have hdead := hd s hs (hm.1.symm.trans ho)
    have halive := hm.2.2.2 hv
    rw [hdead] at halive
    cases halive

theorem findSub_none_ownerDead {st : SysState} {sid : String}
    (h : findSub st sid = none) : ownerDead sid st := by
  intro s hs ho
  have := List.find?_eq_none.mp h s hs
  simp [ho] at this

theorem findSub_mem {st : SysState} {sid : String} {s : DSub}
    (h : findSub st sid = some s) : s ∈ st.subs ∧ s.ownId = sid := by
  refine ⟨List.mem_of_find?_eq_some h, ?_⟩
  have := List.find?_some h
  simpa using this

theorem nodup_key_unique {l : List DSub} (hn : (l.map DSub.ownId).Nodup) :
    ∀ s ∈ l, ∀ t ∈ l, s.ownId = t.ownId → s = t := by
  induction l with
  | nil => intro s hs; cases hs
  | cons a rest ih =>
    rw [List.map_cons, List.nodup_cons] at hn
    intro s hs t ht he
    rcases List.mem_cons.mp hs with he1 | hs1 <;> rcases List.mem_cons.mp ht with he2 | ht1
    · rw [he1, he2]
    · subst he1
      exact absurd (by rw [he]; exact List.mem_map_of_mem _ ht1) hn.1
    · subst he2
      exact absurd (by rw [← he]; exact List.mem_map_of_mem _ hs1) hn.1
    · exact ih hn.2 s hs1 t ht1 he

theorem not_ownerDead_iff {cid : String} {st : SysState} :
    ¬ownerDead cid st ↔ ∃ s ∈ st.subs, s.ownId = cid ∧ s.alive = true := by
  constructor
  · intro h
    unfold ownerDead at h
    push_neg at h
    rcases h with ⟨s, hs, ho, ha⟩
    refine ⟨s, hs, ho, ?_⟩
    cases hv : s.alive
    · exact absurd hv ha
    · rfl
  · rintro ⟨s, hs, ho, ha⟩ h
    have := h s hs ho
    rw [ha] at this
    cases this

theorem aliveFilter_le_of_forall₂ {l' l : List DSub} (h : List.Forall₂ SubMono l' l) :
    (l'.filter (fun s => s.alive)).length ≤ (l.filter (fun s => s.alive)).length := by
  induction h with
  | nil => exact Nat.le_refl 0
  | cons hR h ih =>
    rename_i a' a t' t
    by_cases hv : a'.alive = true
    · have ha := hR.2.2.2 hv
      simp only [List.filter_cons, hv, ha, if_true, List.length_cons]
      exact Nat.succ_le_succ ih
    · have hv' : a'.alive = false := by
        cases hb : a'.alive
        · rfl
        · exact absurd hb hv
      simp only [List.filter_cons, hv', Bool.false_eq_true, if_false]
      by_cases ha : a.alive = true
      · simp only [ha, if_true, List.length_cons]
        exact Nat.le_succ_of_le ih
      · have ha' : a.alive = false := by
          cases hb : a.alive
          · rfl
          · exact absurd hb ha
        simp only [ha', Bool.false_eq_true, if_false]
        exact ih

theorem aliveFilter_lt_of_forall₂ {l' l : List DSub} (h : List.Forall₂ SubMono l' l)
    {x : String} (hal : ∃ s ∈ l, s.ownId = x ∧ s.alive = true)
    (hdead : ∀ s' ∈ l', s'.ownId = x → s'.alive = false) :
    (l'.filter (fun s => s.alive)).length < (l.filter (fun s => s.alive)).length := by
  induction h with
  | nil => rcases hal with ⟨s, hs, _⟩; cases hs
  | cons hR h ih =>
    rename_i a' a t' t
    rcases hal with ⟨s, hs, ho, ha⟩
    rcases List.mem_cons.mp hs with rfl | hs
    · have ha'd : a'.alive = false := hdead a' (List.mem_cons_self _ _) (hR.1.trans ho)
      simp only [List.filter_cons, ha, ha'd, Bool.false_eq_true, if_false, if_true,
        List.length_cons]
      exact Nat.lt_succ_of_le (aliveFilter_le_of_forall₂ h)
    · have hd' : ∀ s' ∈ t', s'.ownId = x → s'.alive = false :=
        fun s' hs' => hdead s' (List.mem_cons_of_mem _ hs')
      have hlt := ih ⟨s, hs, ho, ha⟩ hd'
      by_cases hv : a'.alive = true
      · have haa := hR.2.2.2 hv
        simp only [List.filter_cons, hv, haa, if_true, List.length_cons]
        exact Nat.succ_lt_succ hlt
      · have hv' : a'.alive = false := by
          cases hb : a'.alive
          · rfl
          · exact absurd hb hv
        simp only [List.filter_cons, hv', Bool.false_eq_true, if_false]
        by_cases haa : a.alive = true
        · simp only [haa, if_true, List.length_cons]
          exact Nat.lt_succ_of_lt hlt
        · have haa' : a.alive = false := by
            cases hb : a.alive
            · rfl
            · exact absurd hb haa
          simp only [haa', Bool.false_eq_true, if_false]
          exact hlt

theorem aliveCount_le_of_mono {st' st : SysState} (h : SysMono st' st) :
    aliveCount st' ≤ aliveCount st := aliveFilter_le_of_forall₂ h.1

theorem aliveCount_lt_of_mono {st' st : SysState} (h : SysMono st' st) {x : String}
    (hal : ¬ownerDead x st) (hdead : ownerDead x st') : aliveCount st' < aliveCount st := by
  rcases not_ownerDead_iff.mp hal with ⟨s, hs, ho, ha⟩
  exact aliveFilter_lt_of_forall₂ h.1 ⟨s, hs, ho, ha⟩ hdead

theorem aliveCount_pos {st : SysState} {s : DSub} (hs : s ∈ st.subs) (ha : s.alive = true) :
    1 ≤ aliveCount st := by
  have : s ∈ st.subs.filter (fun s => s.alive) := List.mem_filter.mpr ⟨hs, by simp [ha]⟩
  exact List.length_pos_of_mem this

theorem aliveCount_pushLog (ev : HubEv) (st : SysState) :
    aliveCount (pushLog ev st) = aliveCount st := rfl

theorem ids_eq_of_forall₂ {l' l : List DSub} (h : List.Forall₂ SubMono l' l) :
    l'.map DSub.ownId = l.map DSub.ownId := by
  induction h with
  | nil => rfl
  | cons hR h ih => simp [DSub.ownId, hR.1, ih]

theorem skel_eq_of_forall₂ {l' l : List DSub} (h : List.Forall₂ SubMono l' l) :
    l'.map (fun s => (s.ownId, s.parentId)) = l.map (fun s => (s.ownId, s.parentId)) := by
  induction h with
  | nil => rfl
  | cons hR h ih => simp [hR.1, hR.2.1, ih]

theorem mono_skel {st' st : SysState} (h : SysMono st' st) : skel st' = skel st :=
  skel_eq_of_forall₂ h.1

theorem mono_ids {st' st : SysState} (h : SysMono st' st) :
    st'.subs.map DSub.ownId = st.subs.map DSub.ownId := ids_eq_of_forall₂ h.1

theorem mem_skel {st : SysState} {d p : String} :
    (d, p) ∈ skel st ↔ ∃ s ∈ st.subs, s.ownId = d ∧ s.parentId = p := by
  unfold skel
  rw [List.mem_map]
  constructor
  · rintro ⟨s, hs, he⟩
    cases he
    exact ⟨s, hs, rfl, rfl⟩
  · rintro ⟨s, hs, h1, h2⟩
    exact ⟨s, hs, by rw [h1, h2]⟩

/-- In a wellformed skeleton, each pair's parent identity is strictly shorter
than the own identity (ids are `parentContextId ++ "." ++ key`). -/
def SkelLen (sk : List (String × String)) : Prop := ∀ pr ∈ sk, pr.2.length < pr.1.length

theorem wfs_skelLen {st : SysState} (h : WFS st) : SkelLen (skel st) := by
  intro pr hpr
  rcases List.mem_map.mp hpr with ⟨s, hs, he⟩
  cases he
  have := h.ownEq s hs
  rw [this]
  simp only [String.length_append]
  have : ("." : String).length = 1 := rfl
  omega

theorem descIn_length {sk : List (String × String)} (hlen : SkelLen sk) {c d : String}
    (h : DescIn sk c d) : c.length < d.length := by
  induction h with
  | child hm => exact hlen _ hm
  | step h hm ih => exact Nat.lt_trans ih (hlen _ hm)

theorem descIn_irrefl {sk : List (String × String)} (hlen : SkelLen sk) (c : String) :
    ¬DescIn sk c c := fun h => Nat.lt_irrefl _ (descIn_length hlen h)

theorem descIn_trans {sk : List (String × String)} {a b c : String}
    (h1 : DescIn sk a b) (h2 : DescIn sk b c) : DescIn sk a c := by
  induction h2 with
  | child hm => exact DescIn.step h1 hm
  | step h hm ih => exact DescIn.step ih hm

theorem descIn_top {sk : List (String × String)} {c d : String} (h : DescIn sk c d) :
    ∃ t, (t, c) ∈ sk ∧ (d = t ∨ DescIn sk t d) := by
  induction h with
  | child hm => exact ⟨_, hm, Or.inl rfl⟩
  | step h hm ih =>
    rcases ih with ⟨t, ht, hdt⟩
    refine ⟨t, ht, Or.inr ?_⟩
    rcases hdt with rfl | hdt
    · exact DescIn.child hm
    · exact DescIn.step hdt hm

theorem descIn_bottom {sk : List (String × String)} {c d : String} (h : DescIn sk c d) :
    ∃ m, (d, m) ∈ sk ∧ (m = c ∨ DescIn sk c m) := by
  cases h with
  | child hm => exact ⟨c, hm, Or.inl rfl⟩
  | step h hm => exact ⟨_, hm, Or.inr h⟩

theorem wfs_of_mono {st' st : SysState} (hm : SysMono st' st) (h : WFS st) : WFS st' := by
  refine ⟨?_, ?_, ?_⟩
  · intro s' hs'
    rcases forall₂_mem_left hm.1 s' hs' with ⟨s, hs, hr⟩
    rw [hr.1, hr.2.1, hr.2.2.1]
    exact h.ownEq s hs
  · rw [mono_ids hm]
    exact h.nodupIds
  · intro s' hs'
    rcases forall₂_mem_left hm.1 s' hs' with ⟨s, hs, hr⟩
    rcases h.childrenAfter s hs with ⟨l₁, l₂, hsplit, hc⟩
    refine ⟨l₁, l₂, by rw [mono_ids hm, hsplit, hr.1], ?_⟩
    intro t' ht' hp
    rcases forall₂_mem_left hm.1 t' ht' with ⟨t, ht, htr⟩
    rw [htr.1]
    exact hc t ht (by rw [← htr.2.1, hp, hr.1])

theorem subtreeDead_mono {st' st : SysState} {c : String} (hm : SysMono st' st)
    (h : SubtreeDead c st) : SubtreeDead c st' := by
  refine ⟨mono_ownerDead hm h.1, mono_log_mem hm h.2.1, ?_⟩
  intro d hd
  rw [mono_skel hm] at hd
  exact ⟨mono_ownerDead hm (h.2.2 d hd).1, mono_log_mem hm (h.2.2 d hd).2⟩

/-- Every subscriber under parent `p` with key `k` is dead. -/
def allDeadPK (p k : String) (st : SysState) : Prop :=
  ∀ s ∈ st.subs, s.parentId = p → s.key = k → s.alive = false

theorem mono_allDeadPK {st' st : SysState} (hm : SysMono st' st) {p k : String}
    (h : allDeadPK p k st) : allDeadPK p k st' := by
  intro s' hs' hp hk
  rcases forall₂_mem_left hm.1 s' hs' with ⟨s, hs, hr⟩
  cases hv : s'.alive with
  | false => rfl
  | true =>
    have hdead := h s hs (hr.2.1.symm.trans hp) (hr.2.2.1.symm.trans hk)
    have halive := hr.2.2.2 hv
    rw [hdead] at halive
    cases halive

theorem count_push_ne {ev ev' : HubEv} (l : List HubEv) (h : ev' ≠ ev) :
    (ev' :: l).count ev = l.count ev := by
  simp [List.count_cons, h]

theorem bool_not_true {b : Bool} (h : ¬b = true) : b = false := by
  cases hb : b
  · rfl
  · exact absurd hb h

theorem findSub_none_not_mem {st : SysState} {sid : String} (h : findSub st sid = none) :
    ∀ t ∈ st.subs, t.ownId ≠ sid := by
  intro t ht he
  have := List.find?_eq_none.mp h t ht
  simp [he] at this

theorem killSub_newly_dead {st : SysState} {sid u : String}
    (hdead : ownerDead u (killSub st sid)) (halive : ¬ownerDead u st) : u = sid := by
  rcases not_ownerDead_iff.mp halive with ⟨v, hv, hvo, hva⟩
  by_contra hne
  have hv' : v ∈ (killSub st sid).subs :=
    killSub_mem_of_ne st sid hv (by rw [hvo]; exact hne)
  have := hdead v hv' hvo
  rw [hva] at this
  cases this

theorem wfs_ownId_ne_parentId {st : SysState} (hW : WFS st) {t : DSub} (ht : t ∈ st.subs) :
    t.ownId ≠ t.parentId := by
  intro he
  have hlen := congrArg String.length (hW.ownEq t ht)
  rw [he] at hlen
  simp only [String.length_append] at hlen
  have hdot : ("." : String).length = 1 := rfl
  omega

/-- The own-identity entry of `cid` in the snapshot either has already closed
its subscriptions or still precedes, in the remaining snapshot, every live
child whose handler the notification would fire. Delivery starts in this shape
(subscription order puts a context before its children) and it is what makes a
context go dead before its children cascade. -/
def KA (cid : String) (pending : List String) (st : SysState) : Prop :=
  ownerDead cid st ∨
    ∃ l₁ l₂, pending = l₁ ++ cid :: l₂ ∧
      ∀ s ∈ st.subs, s.parentId = cid → s.alive = true → s.ownId ∈ l₂

theorem KA_tail_skip {cid sid : String} {rest : List String} {st : SysState}
    (hKA : KA cid (sid :: rest) st) (hne : sid ≠ cid) : KA cid rest st := by
  rcases hKA with h | ⟨l₁, l₂, hsplit, hc⟩
  · exact Or.inl h
  · cases l₁ with
    | nil =>
      injection hsplit with he1 _
      exact absurd he1 hne
    | cons h1 l₁ =>
      injection hsplit with _ he2
      exact Or.inr ⟨l₁, l₂, he2, hc⟩

theorem KA_head_child {cid : String} {s : DSub} {rest : List String} {st : SysState}
    (hN : (s.ownId :: rest).Nodup) (hKA : KA cid (s.ownId :: rest) st)
    (hs : s ∈ st.subs) (hp : s.parentId = cid) (ha : s.alive = true)
    (hne : cid ≠ s.ownId) : ownerDead cid st := by
  rcases hKA with h | ⟨l₁, l₂, hsplit, hc⟩
  · exact h
  · exfalso
    have hmem : s.ownId ∈ l₂ := hc s hs hp ha
    cases l₁ with
    | nil =>
      injection hsplit with he1 _
      exact hne he1.symm
    | cons h1 l₁ =>
      injection hsplit with he1 he2
      rw [List.nodup_cons] at hN
      exact hN.1 (by rw [he2]; exact List.mem_append_right l₁ (List.mem_cons_of_mem cid hmem))

/-- What the fan-out of destruction notification `cid` over the remaining
snapshot `pending` guarantees: the hub evolves monotonically; the own entry, if
in the snapshot, is closed afterwards; only `cid` and its strict descendants
get closed; the destruction and deregistration counts of already-dead contexts
stay unchanged; every live child in the snapshot ends up with its whole
subtree destroyed; and the cascade invariant holds again. -/
structure DelivOut (cid : String) (pending : List String) (st st' : SysState) : Prop where
  mono : SysMono st' st
  killed : cid ∈ pending → ownerDead cid st'
  killedOnly : ∀ x, ownerDead x st' → ownerDead x st ∨ x = cid ∨ DescIn (skel st) cid x
  countDestroyed : ∀ x, ownerDead x st →
    st'.log.count (HubEv.destroyed x) = st.log.count (HubEv.destroyed x)
  countDereg : ∀ p k, allDeadPK p k st →
    st'.log.count (HubEv.dereg p k) = st.log.count (HubEv.dereg p k)
  cascade : ∀ s ∈ st.subs, s.parentId = cid → s.alive = true → s.ownId ∈ pending →
    SubtreeDead s.ownId st'
  below : GoodBelow cid st'

theorem descIn_prepend {sk : List (String × String)} {c t d : String}
    (hm : (t, c) ∈ sk) (h : DescIn sk t d) : DescIn sk c d :=
  descIn_trans (DescIn.child hm) h

theorem deliver_main (fuel : Nat) : ∀ (pending : List String) (cid : String) (st : SysState),
    WFS st → pending.Nodup → KA cid pending st → GoodBelow cid st →
    (ownerDead cid st → aliveCount st ≤ fuel) →
    (¬ownerDead cid st → aliveCount st ≤ fuel + 1) →
    ∃ st', deliverStep (deliverFuel fuel) cid pending st = some st' ∧
      DelivOut cid pending st st' := by
  induction fuel using Nat.strong_induction_on with
  | _ fuel IHf =>
  intro pending
  induction pending with
  | nil =>
    intro cid st hW _ _ hGB _ _
    refine ⟨st, rfl, sysMono_refl st, ?_, ?_, ?_, ?_, ?_, hGB⟩
    · intro h; cases h
    · intro x h; exact Or.inl h
    · intro x _; rfl
    · intro p k _; rfl
    · intro s _ _ _ h; cases h
  | cons sid rest IHp =>
    intro cid st hW hN hKA hGB hf1 hf2
    have hNr : rest.Nodup := (List.nodup_cons.mp hN).2
    cases hfind : findSub st sid with
    | none =>
      have hKAr : KA cid rest st := by
        by_cases hsc : sid = cid
        · exact Or.inl (by rw [← hsc]; exact findSub_none_ownerDead hfind)
        · exact KA_tail_skip hKA hsc
      rcases IHp cid st hW hNr hKAr hGB hf1 hf2 with ⟨st', hrun, out⟩
      refine ⟨st', by simp only [deliverStep, hfind]; exact hrun,
        out.mono, ?_, out.killedOnly, out.countDestroyed, out.countDereg, ?_, out.below⟩
      · intro hmem
        rcases List.mem_cons.mp hmem with he | hmem
        · exact mono_ownerDead out.mono (by rw [he]; exact findSub_none_ownerDead hfind)
        · exact out.killed hmem
      · intro t ht htp hta hmem
        rcases List.mem_cons.mp hmem with he | hmem
        · exact absurd he (findSub_none_not_mem hfind t ht)
        · exact out.cascade t ht htp hta hmem
    | some s =>
      obtain ⟨hs, hsid⟩ := findSub_mem hfind
      by_cases heq : cid = s.ownId
      · -- the own entry: all of this context's subscriptions close
        have hcids : cid = sid := heq.trans hsid
        have hkill : ownerDead cid (killSub st sid) := by
          rw [hcids]; exact killSub_ownerDead st sid
        have hWk : WFS (killSub st sid) := wfs_of_mono (killSub_mono st sid) hW
        have hGBk : GoodBelow cid (killSub st sid) := by
          intro u hdu hdead
          have hsk : skel (killSub st sid) = skel st := mono_skel (killSub_mono st sid)
          rw [hsk] at hdu
          by_cases hud : ownerDead u st
          · exact subtreeDead_mono (killSub_mono st sid) (hGB u hdu hud)
          · exfalso
            have husid : u = sid := killSub_newly_dead hdead hud
            rw [husid, ← hcids] at hdu
            exact descIn_irrefl (wfs_skelLen hW) cid hdu
        have hf1k : ownerDead cid (killSub st sid) → aliveCount (killSub st sid) ≤ fuel := by
          intro _
          by_cases hcd : ownerDead cid st
          · exact le_trans (aliveCount_le_of_mono (killSub_mono st sid)) (hf1 hcd)
          · have hlt := aliveCount_lt_of_mono (killSub_mono st sid) hcd hkill
            have := hf2 hcd
            omega
        have hf2k : ¬ownerDead cid (killSub st sid) → aliveCount (killSub st sid) ≤ fuel + 1 :=
          fun hneg => (hneg hkill).elim
        rcases IHp cid (killSub st sid) hWk hNr (Or.inl hkill) hGBk hf1k hf2k with
          ⟨st', hrun, out⟩
        have hmonoK : SysMono st' st := sysMono_trans out.mono (killSub_mono st sid)
        refine ⟨st', by simp only [deliverStep, hfind, if_pos heq]; exact hrun,
          hmonoK, fun _ => mono_ownerDead out.mono hkill, ?_, ?_, ?_, ?_, out.below⟩
        · intro x hx
          rcases out.killedOnly x hx with h1 | h2 | h3
          · by_cases hxd : ownerDead x st
            · exact Or.inl hxd
            · exact Or.inr (Or.inl ((killSub_newly_dead h1 hxd).trans hcids.symm))
          · exact Or.inr (Or.inl h2)
          · rw [mono_skel (killSub_mono st sid)] at h3
            exact Or.inr (Or.inr h3)
        · intro x hx
          exact out.countDestroyed x (mono_ownerDead (killSub_mono st sid) hx)
        · intro p k hx
          exact out.countDereg p k (mono_allDeadPK (killSub_mono st sid) hx)
        · intro t ht htp hta hmem
          have htne : t.ownId ≠ sid := by
            rw [← hcids, ← htp]
            exact wfs_ownId_ne_parentId hW ht
          rcases List.mem_cons.mp hmem with he | hmem
          · exact absurd he htne
          · exact out.cascade t (killSub_mem_of_ne st sid ht htne) htp hta hmem
      · by_cases hcond : cid = s.parentId ∧ s.alive = true
        · -- the handler: destroy s, with a re-entrant publish of s's destruction
          obtain ⟨hpc, ha⟩ := hcond
          have hN' : (s.ownId :: rest).Nodup := by rw [hsid]; exact hN
          have hKA' : KA cid (s.ownId :: rest) st := by rw [hsid]; exact hKA
          have hod : ownerDead cid st := KA_head_child hN' hKA' hs hpc.symm ha heq
          have hpos : 1 ≤ aliveCount st := aliveCount_pos hs ha
          have hfle := hf1 hod
          cases fuel with
          | zero => omega
          | succ h =>
          have hWm : WFS (pushLog (.destroyed s.ownId)
              (pushLog (.dereg s.parentId s.key) st)) :=
            ⟨hW.ownEq, hW.nodupIds, hW.childrenAfter⟩
          have hmonoMid : SysMono (pushLog (.destroyed s.ownId)
              (pushLog (.dereg s.parentId s.key) st)) st :=
            sysMono_trans (pushLog_mono _ _) (pushLog_mono _ _)
          rcases hW.childrenAfter s hs with ⟨l₁, l₂, hsplit, hchl⟩
          have hKAin : KA s.ownId (st.subs.map DSub.ownId)
              (pushLog (.destroyed s.ownId) (pushLog (.dereg s.parentId s.key) st)) :=
            Or.inr ⟨l₁, l₂, hsplit, fun t ht htp _ => hchl t ht htp⟩
          have hGBin : GoodBelow s.ownId
              (pushLog (.destroyed s.ownId) (pushLog (.dereg s.parentId s.key) st)) := by
            intro u hdu hdead
            have hcu : DescIn (skel st) cid u :=
              descIn_prepend (mem_skel.mpr ⟨s, hs, rfl, hpc.symm⟩) hdu
            exact subtreeDead_mono hmonoMid (hGB u hcu hdead)
          have hf1in : ownerDead s.ownId
              (pushLog (.destroyed s.ownId) (pushLog (.dereg s.parentId s.key) st)) →
              aliveCount (pushLog (.destroyed s.ownId)
                (pushLog (.dereg s.parentId s.key) st)) ≤ h := by
            intro hodin
            have := hodin s hs rfl
            rw [ha] at this
            cases this
          have hf2in : ¬ownerDead s.ownId
              (pushLog (.destroyed s.ownId) (pushLog (.dereg s.parentId s.key) st)) →
              aliveCount (pushLog (.destroyed s.ownId)
                (pushLog (.dereg s.parentId s.key) st)) ≤ h + 1 :=
            fun _ => hfle
          rcases IHf h (Nat.lt_succ_self h) (st.subs.map DSub.ownId) s.ownId
              (pushLog (.destroyed s.ownId) (pushLog (.dereg s.parentId s.key) st))
              hWm hW.nodupIds hKAin hGBin hf1in hf2in with ⟨st2, hrun2, out2⟩
          have hdeads2 : ownerDead s.ownId st2 :=
            out2.killed (List.mem_map_of_mem DSub.ownId hs)
          have hmono2st : SysMono st2 st := sysMono_trans out2.mono hmonoMid
          have hskel2 : skel st2 = skel st := mono_skel hmono2st
          have hsub_s : SubtreeDead s.ownId st2 := by
            refine ⟨hdeads2, mono_log_mem out2.mono (List.mem_cons_self _ _), ?_⟩
            intro d hd
            rw [hskel2] at hd
            rcases descIn_top hd with ⟨t, htc, hdt⟩
            rcases mem_skel.mp htc with ⟨ts, hts, hto, htpp⟩
            by_cases hta : ts.alive = true
            · have hc := out2.cascade ts hts htpp hta (List.mem_map_of_mem DSub.ownId hts)
              rw [hto] at hc
              rcases hdt with rfl | hdt
              · exact ⟨hc.1, hc.2.1⟩
              · exact hc.2.2 d (by rw [hskel2]; exact hdt)
            · have htdead : ownerDead t st := by
                intro u hu huo
                have := nodup_key_unique hW.nodupIds u hu ts hts (huo.trans hto.symm)
                rw [this]
                exact bool_not_true hta
              have htcid : DescIn (skel st) cid t :=
                DescIn.step (DescIn.child (mem_skel.mpr ⟨s, hs, rfl, hpc.symm⟩)) htc
              have hst2 := subtreeDead_mono hmono2st (hGB t htcid htdead)
              rcases hdt with rfl | hdt
              · exact ⟨hst2.1, hst2.2.1⟩
              · exact hst2.2.2 d (by rw [hskel2]; exact hdt)
          have hGB2 : GoodBelow cid st2 := by
            intro u hdu hdead
            rw [hskel2] at hdu
            by_cases hud : ownerDead u st
            · exact subtreeDead_mono hmono2st (hGB u hdu hud)
            · rcases out2.killedOnly u hdead with h1 | h2 | h3
              · exact absurd h1 hud
              · rw [h2]; exact hsub_s
              · refine ⟨hdead, (hsub_s.2.2 u (by rw [hskel2]; exact h3)).2, ?_⟩
                intro d hd
                exact hsub_s.2.2 d (descIn_trans (by rw [hskel2]; exact h3) hd)
          have hcnt : aliveCount (pushLog (.destroyed s.ownId)
              (pushLog (.dereg s.parentId s.key) st)) = aliveCount st := rfl
          have hf1c : ownerDead cid st2 → aliveCount st2 ≤ h + 1 := by
            intro _
            have hlt : aliveCount st2 < aliveCount (pushLog (.destroyed s.ownId)
                (pushLog (.dereg s.parentId s.key) st)) :=
              aliveCount_lt_of_mono out2.mono
                (not_ownerDead_iff.mpr ⟨s, hs, rfl, ha⟩) hdeads2
            omega
          have hf2c : ¬ownerDead cid st2 → aliveCount st2 ≤ h + 1 + 1 :=
            fun hneg => (hneg (mono_ownerDead hmono2st hod)).elim
          rcases IHp cid st2 (wfs_of_mono out2.mono hWm) hNr
              (Or.inl (mono_ownerDead hmono2st hod)) hGB2 hf1c hf2c with ⟨st3, hrun3, out3⟩
          have hmono3st : SysMono st3 st := sysMono_trans out3.mono hmono2st
          have hrunF : deliverFuel (h + 1) s.ownId
              (pushLog (.destroyed s.ownId) (pushLog (.dereg s.parentId s.key) st)) =
                some st2 := hrun2
          refine ⟨st3, ?_,
            hmono3st, fun _ => mono_ownerDead hmono3st hod, ?_, ?_, ?_, ?_, out3.below⟩
          · simp only [deliverStep, hfind, if_neg heq,
              if_pos (⟨hpc, ha⟩ : cid = s.parentId ∧ s.alive = true)]
            rw [hrunF]
            exact hrun3
          · intro x hx
            rcases out3.killedOnly x hx with h1 | h2 | h3
            · rcases out2.killedOnly x h1 with g1 | g2 | g3
              · exact Or.inl g1
              · refine Or.inr (Or.inr ?_)
                rw [g2]
                exact DescIn.child (mem_skel.mpr ⟨s, hs, rfl, hpc.symm⟩)
              · exact Or.inr (Or.inr
                  (descIn_trans (DescIn.child (mem_skel.mpr ⟨s, hs, rfl, hpc.symm⟩)) g3))
            · exact Or.inr (Or.inl h2)
            · rw [hskel2] at h3
              exact Or.inr (Or.inr h3)
          · intro x hx
            have hxs : HubEv.destroyed s.ownId ≠ HubEv.destroyed x := by
              intro hc
              injection hc with hc
              have := hx s hs hc
              rw [ha] at this
              cases this
            have h3 := out3.countDestroyed x (mono_ownerDead hmono2st hx)
            have h2 := out2.countDestroyed x hx
            rw [h3, h2]
            show ((HubEv.destroyed s.ownId) ::
                (HubEv.dereg s.parentId s.key) :: st.log).count (HubEv.destroyed x) =
              st.log.count (HubEv.destroyed x)
            rw [count_push_ne _ hxs, count_push_ne _ (fun hc => HubEv.noConfusion hc)]
          · intro p k hpk
            have hne2 : HubEv.dereg s.parentId s.key ≠ HubEv.dereg p k := by
              intro hc
              injection hc with hc1 hc2
              have := hpk s hs hc1 hc2
              rw [ha] at this
              cases this
            have h3 := out3.countDereg p k (mono_allDeadPK hmono2st hpk)
            have h2 := out2.countDereg p k hpk
            rw [h3, h2]
            show ((HubEv.destroyed s.ownId) ::
                (HubEv.dereg s.parentId s.key) :: st.log).count (HubEv.dereg p k) =
              st.log.count (HubEv.dereg p k)
            rw [count_push_ne _ (fun hc => HubEv.noConfusion hc), count_push_ne _ hne2]
          · intro t ht htp hta hmem
            by_cases hts : t.ownId = sid
            · have htseq : t = s :=
                nodup_key_unique hW.nodupIds t ht s hs (hts.trans hsid.symm)
              rw [htseq]
              exact subtreeDead_mono out3.mono hsub_s
            · have hmem' : t.ownId ∈ rest := by
                rcases List.mem_cons.mp hmem with he | hm
                · exact absurd he hts
                · exact hm
              have htalive2 : ¬ownerDead t.ownId st2 := by
                intro hdead2
                rcases out2.killedOnly t.ownId hdead2 with g1 | g2 | g3
                · exact (not_ownerDead_iff.mpr ⟨t, ht, rfl, hta⟩) g1
                · exact hts (g2.trans hsid)
                · rcases descIn_bottom g3 with ⟨m, hpair, hm⟩
                  rcases mem_skel.mp hpair with ⟨u, hu, huo, hup⟩
                  have hut : u = t := nodup_key_unique hW.nodupIds u hu t ht huo
                  rw [hut] at hup
                  have hmcid : m = cid := hup.symm.trans htp
                  rcases hm with he | hdesc
                  · exact heq (by rw [← hmcid]; exact he)
                  · rw [hmcid] at hdesc
                    have hl1 := descIn_length (wfs_skelLen hW) hdesc
                    have hl2 := wfs_skelLen hW (s.ownId, cid)
                      (mem_skel.mpr ⟨s, hs, rfl, hpc.symm⟩)
                    simp only at hl2
                    omega
              rcases not_ownerDead_iff.mp htalive2 with ⟨t2, ht2, ht2o, ht2a⟩
              rcases forall₂_mem_left out2.mono.1 t2 ht2 with ⟨torig, htorig, hrel⟩
              have htot : torig = t :=
                nodup_key_unique hW.nodupIds torig htorig t ht (hrel.1.symm.trans ht2o)
              have ht2p : t2.parentId = cid := by
                rw [hrel.2.1, htot, htp]
              have hc3 := out3.cascade t2 ht2 ht2p ht2a (by rw [ht2o]; exact hmem')
              rw [ht2o] at hc3
              exact hc3
        · -- skip: neither the own entry nor a live child of cid
          have hsidne : sid ≠ cid := by
            intro hc
            rw [hc] at hsid
            exact heq hsid.symm
          rcases IHp cid st hW hNr (KA_tail_skip hKA hsidne) hGB hf1 hf2 with ⟨st', hrun, out⟩
          refine ⟨st', by simp only [deliverStep, hfind, if_neg heq, if_neg hcond]; exact hrun,
            out.mono, ?_, out.killedOnly, out.countDestroyed, out.countDereg, ?_, out.below⟩
          · intro hmem
            rcases List.mem_cons.mp hmem with he | hmem
            · exact absurd he (fun hc => hsidne hc.symm)
            · exact out.killed hmem
          · intro t ht htp hta hmem
            rcases List.mem_cons.mp hmem with he | hmem
            · have hts : t = s := nodup_key_unique hW.nodupIds t ht s hs (he.trans hsid.symm)
              refine absurd ⟨?_, ?_⟩ hcond
              · rw [hts] at htp
                exact htp.symm
              · rw [← hts]
                exact hta
            · exact out.cascade t ht htp hta hmem

theorem KA_full {cid : String} {st : SysState} (hW : WFS st) :
    KA cid (st.subs.map DSub.ownId) st := by
  by_cases h : ownerDead cid st
  · exact Or.inl h
  · rcases not_ownerDead_iff.mp h with ⟨s, hs, ho, _⟩
    rcases hW.childrenAfter s hs with ⟨l₁, l₂, hsplit, hc⟩
    exact Or.inr ⟨l₁, l₂, by rw [← ho]; exact hsplit,
      fun t ht htp _ => hc t ht (by rw [ho]; exact htp)⟩

theorem goodBelow_of_all_alive {cid : String} {st : SysState}
    (hall : ∀ s ∈ st.subs, s.alive = true) : GoodBelow cid st := by
  intro u hdu hdead
  rcases descIn_bottom hdu with ⟨m, hpair, _⟩
  rcases mem_skel.mp hpair with ⟨s, hs, ho, _⟩
  have h1 := hdead s hs ho
  rw [hall s hs] at h1
  cases h1

/-- Success and full guarantees for a complete publish of a destruction
notification on a wellformed hub, given fuel at least the number of live
subscribers plus one. -/
theorem publishDestruction_main (fuel : Nat) (cid : String) (st : SysState)
    (hW : WFS st) (hGB : GoodBelow cid st) (hfuel : aliveCount st + 1 ≤ fuel) :
    ∃ st', publishDestruction fuel cid st = some st' ∧
      DelivOut cid (st.subs.map DSub.ownId) (pushLog (.destroyed cid) st) st' := by
  cases fuel with
  | zero => omega
  | succ h =>
    have hWp : WFS (pushLog (.destroyed cid) st) := ⟨hW.ownEq, hW.nodupIds, hW.childrenAfter⟩
    have hGBp : GoodBelow cid (pushLog (.destroyed cid) st) := by
      intro u hdu hdead
      exact subtreeDead_mono (pushLog_mono _ _) (hGB u hdu hdead)
    have hcc : aliveCount (pushLog (.destroyed cid) st) = aliveCount st := rfl
    rcases deliver_main h (st.subs.map DSub.ownId) cid (pushLog (.destroyed cid) st)
        hWp hW.nodupIds (KA_full hWp) hGBp (fun _ => by omega) (fun _ => by omega) with
      ⟨st', hrun, out⟩
    exact ⟨st', hrun, out⟩

theorem map_id_of_mem {α : Type} (f : α → α) :
    ∀ (l : List α), (∀ x ∈ l, f x = x) → l.map f = l := by
  intro l
  induction l with
  | nil => intro _; rfl
  | cons a t ih =>
    intro h
    rw [List.map_cons, h a (List.mem_cons_self a t),
      ih (fun x hx => h x (List.mem_cons_of_mem a hx))]

theorem killSub_eq_of_dead {st : SysState} {sid : String} (h : ownerDead sid st) :
    killSub st sid = st := by
  have hmap : st.subs.map
      (fun s => if s.ownId = sid then { s with alive := false } else s) = st.subs := by
    refine map_id_of_mem _ st.subs (fun s hs => ?_)
    by_cases ho : s.ownId = sid
    · rw [if_pos ho]
      have hd := h s hs ho
      cases s with
      | mk o p k a =>
        simp only at hd
        rw [hd]
    · rw [if_neg ho]
  show ({ st with subs := st.subs.map _ } : SysState) = st
  rw [hmap]

/-- A destruction notification whose context has no live children (and whose
own entry is already closed) fans out without any effect: no handler fires. -/
theorem deliver_quiet (fuel : Nat) : ∀ (pending : List String) (cid : String) (st : SysState),
    (∀ s ∈ st.subs, s.parentId = cid → s.alive = false) →
    ownerDead cid st →
    deliverStep (deliverFuel fuel) cid pending st = some st := by
  intro pending
  induction pending with
  | nil => intro cid st _ _; rfl
  | cons sid rest ih =>
    intro cid st hch hod
    cases hfind : findSub st sid with
    | none =>
      simp only [deliverStep, hfind]
      exact ih cid st hch hod
    | some s =>
      obtain ⟨hs, hsid⟩ := findSub_mem hfind
      by_cases heq : cid = s.ownId
      · have hkeq : killSub st sid = st :=
          killSub_eq_of_dead (by rw [← hsid, ← heq]; exact hod)
        simp only [deliverStep, hfind, if_pos heq, hkeq]
        exact ih cid st hch hod
      · have hcond : ¬(cid = s.parentId ∧ s.alive = true) := by
          rintro ⟨h1, h2⟩
          have := hch s hs h1.symm
          rw [this] at h2
          cases h2
        simp only [deliverStep, hfind, if_neg heq, if_neg hcond]
        exact ih cid st hch hod

/-- Standalone bookkeeping for any successful fan-out, with no wellformedness
or fuel hypotheses: the hub evolves monotonically, and the destruction and
deregistration counts of contexts already dead at entry never change (handlers
fire only for live contexts). -/
theorem deliver_count (fuel : Nat) : ∀ (pending : List String) (cid : String) (st st' : SysState),
    deliverStep (deliverFuel fuel) cid pending st = some st' →
    SysMono st' st ∧
    (∀ x, ownerDead x st →
      st'.log.count (HubEv.destroyed x) = st.log.count (HubEv.destroyed x)) ∧
    (∀ p k, allDeadPK p k st →
      st'.log.count (HubEv.dereg p k) = st.log.count (HubEv.dereg p k)) := by
  induction fuel using Nat.strong_induction_on with
  | _ fuel IHf =>
  intro pending
  induction pending with
  | nil =>
    intro cid st st' hrun
    cases hrun
    exact ⟨sysMono_refl st, fun x _ => rfl, fun p k _ => rfl⟩
  | cons sid rest IHp =>
    intro cid st st' hrun
    cases hfind : findSub st sid with
    | none =>
      simp only [deliverStep, hfind] at hrun
      exact IHp cid st st' hrun
    | some s =>
      by_cases heq : cid = s.ownId
      · simp only [deliverStep, hfind, if_pos heq] at hrun
        have h := IHp cid (killSub st sid) st' hrun
        refine ⟨sysMono_trans h.1 (killSub_mono st sid), ?_, ?_⟩
        · intro x hx
          exact h.2.1 x (mono_ownerDead (killSub_mono st sid) hx)
        · intro p k hx
          exact h.2.2 p k (mono_allDeadPK (killSub_mono st sid) hx)
      · by_cases hcond : cid = s.parentId ∧ s.alive = true
        · simp only [deliverStep, hfind, if_neg heq, if_pos hcond] at hrun
          cases hrec : deliverFuel fuel s.ownId
              (pushLog (.destroyed s.ownId) (pushLog (.dereg s.parentId s.key) st)) with
          | none =>
            rw [hrec] at hrun
            cases hrun
          | some st2 =>
            rw [hrec] at hrun
            cases fuel with
            | zero => cases hrec
            | succ g =>
            have hinner := IHf g (Nat.lt_succ_self g)
              ((pushLog (.destroyed s.ownId)
                (pushLog (.dereg s.parentId s.key) st)).subs.map DSub.ownId) s.ownId
              (pushLog (.destroyed s.ownId) (pushLog (.dereg s.parentId s.key) st)) st2 hrec
            have houter := IHp cid st2 st' hrun
            have hmonoMid : SysMono (pushLog (.destroyed s.ownId)
                (pushLog (.dereg s.parentId s.key) st)) st :=
              sysMono_trans (pushLog_mono _ _) (pushLog_mono _ _)
            have hmono2st : SysMono st2 st := sysMono_trans hinner.1 hmonoMid
            refine ⟨sysMono_trans houter.1 hmono2st, ?_, ?_⟩
            · intro x hx
              have hxs : HubEv.destroyed s.ownId ≠ HubEv.destroyed x := by
                intro hc
                injection hc with hc
                have := hx s (findSub_mem hfind).1 hc
                rw [hcond.2] at this
                cases this
              rw [houter.2.1 x (mono_ownerDead hmono2st hx), hinner.2.1 x hx]
              show ((HubEv.destroyed s.ownId) ::
                  (HubEv.dereg s.parentId s.key) :: st.log).count (HubEv.destroyed x) =
                st.log.count (HubEv.destroyed x)
              rw [count_push_ne _ hxs, count_push_ne _ (fun hc => HubEv.noConfusion hc)]
            · intro p k hx
              have hne2 : HubEv.dereg s.parentId s.key ≠ HubEv.dereg p k := by
                intro hc
                injection hc with hc1 hc2
                have := hx s (findSub_mem hfind).1 hc1 hc2
                rw [hcond.2] at this
                cases this
              rw [houter.2.2 p k (mono_allDeadPK hmono2st hx), hinner.2.2 p k hx]
              show ((HubEv.destroyed s.ownId) ::
                  (HubEv.dereg s.parentId s.key) :: st.log).count (HubEv.dereg p k) =
                st.log.count (HubEv.dereg p k)
              rw [count_push_ne _ (fun hc => HubEv.noConfusion hc), count_push_ne _ hne2]
        · simp only [deliverStep, hfind, if_neg heq, if_neg hcond] at hrun
          exact IHp cid st st' hrun

/-- A dead pipeline stays dead and never delivers anything to subscribers. -/
theorem runSubjFrom_dead (bb : BB) : ∀ (evs : List HEvent) (s : SubjState),
    s.alive = false → (runSubjFrom bb s evs).2 = [] ∧ (runSubjFrom bb s evs).1.alive = false := by
  intro evs
  induction evs with
  | nil => intro s h; exact ⟨rfl, h⟩
  | cons e es ih =>
    intro s h
    have hstep : (subjStep bb s e).1.alive = false ∧ (subjStep bb s e).2 = [] := by
      cases e with
      | destroyN cid => by_cases hc : cid = bb.ctxId <;> simp [subjStep, hc, h]
      | stateN cid sval => simp [subjStep, h]
    have hrest := ih (subjStep bb s e).1 hstep.1
    simp only [runSubjFrom]
    rw [hstep.2, hrest.1]
    exact ⟨rfl, hrest.2⟩

/-- C2: destroying a context synchronously destroys every descendant,
regardless of depth: within the very `destroy()` call, every descendant's
destruction notification is published and every descendant's own entry on the
destruction channel closes (each context receiving a destruction notification
for its parent's identity invokes its own destroy). Afterwards no descendant's
state-change subscriber can fire: a state pipeline whose
`takeUntil(isDestroyed$)` has fired delivers nothing on any further input. -/
theorem claim_C2 (fuel : Nat) (st : SysState) (P : DSub)
    (hW : WFS st) (hall : ∀ s ∈ st.subs, s.alive = true) (hP : P ∈ st.subs)
    (hfuel : aliveCount st + 1 ≤ fuel) :
    (∃ st', createDestroyCall fuel P.parentId P.key P.ownId st = some st' ∧
      ((HubEv.destroyed P.ownId) ∈ st'.log ∧ ownerDead P.ownId st') ∧
      (∀ d, DescIn (skel st) P.ownId d →
        (HubEv.destroyed d) ∈ st'.log ∧ ownerDead d st')) ∧
    (∀ (bb : BB) (s : SubjState) (evs : List HEvent),
      s.alive = false → (runSubjFrom bb s evs).2 = []) := by
  constructor
  · have hW0 : WFS (pushLog (.dereg P.parentId P.key) st) :=
      ⟨hW.ownEq, hW.nodupIds, hW.childrenAfter⟩
    have hGB0 : GoodBelow P.ownId (pushLog (.dereg P.parentId P.key) st) :=
      goodBelow_of_all_alive hall
    rcases publishDestruction_main fuel P.ownId (pushLog (.dereg P.parentId P.key) st)
        hW0 hGB0 hfuel with ⟨st', hrun, out⟩
    have hskel : skel st' = skel st :=
      mono_skel (sysMono_trans out.mono (sysMono_trans (pushLog_mono _ _) (pushLog_mono _ _)))
    refine ⟨st', hrun, ⟨mono_log_mem out.mono (List.mem_cons_self _ _),
      out.killed (List.mem_map_of_mem DSub.ownId hP)⟩, ?_⟩
    intro d hd
    rcases descIn_top hd with ⟨t, htc, hdt⟩
    rcases mem_skel.mp htc with ⟨ts, hts, hto, htp⟩
    have hc := out.cascade ts hts htp (hall ts hts) (List.mem_map_of_mem DSub.ownId hts)
    rw [hto] at hc
    rcases hdt with rfl | hdt
    · exact ⟨hc.2.1, hc.1⟩
    · have hdd := hc.2.2 d (by rw [hskel]; exact hdt)
      exact ⟨hdd.2, hdd.1⟩
  · intro bb s evs h
    exact (runSubjFrom_dead bb evs s h).1

/-- C10: once a destruction notification carrying a context's own identity has
been delivered (its subscriptions, including the parent-destruction cascade
subscription, are closed — `alive = false`), a later destruction notification
for its parent's identity no longer triggers its destroy: a full publish of
the parent's destruction adds no new destruction notification for this
context and no new Deregistration under its `(parentContextId, key)` pair. -/
theorem claim_C10 (fuel : Nat) (st st' : SysState) (s : DSub)
    (hW : WFS st) (hs : s ∈ st.subs) (hdead : s.alive = false)
    (hrun : publishDestruction fuel s.parentId st = some st') :
    st'.log.count (HubEv.destroyed s.ownId) = st.log.count (HubEv.destroyed s.ownId) ∧
    st'.log.count (HubEv.dereg s.parentId s.key) =
      st.log.count (HubEv.dereg s.parentId s.key) := by
  unfold publishDestruction at hrun
  cases fuel with
  | zero => cases hrun
  | succ g =>
  have h := deliver_count g
    ((pushLog (.destroyed s.parentId) st).subs.map DSub.ownId) s.parentId
    (pushLog (.destroyed s.parentId) st) st' hrun
  have hparent_ne : s.parentId ≠ s.ownId := (wfs_ownId_ne_parentId hW hs).symm
  constructor
  · have hod : ownerDead s.ownId st := by
      intro t ht hto
      have := nodup_key_unique hW.nodupIds t ht s hs hto
      rw [this]
      exact hdead
    rw [h.2.1 s.ownId hod]
    exact count_push_ne _ (fun hc => by injection hc with hc; exact hparent_ne hc)
  · have hpk : allDeadPK s.parentId s.key st := by
      intro t ht htp htk
      have hto : t.ownId = s.ownId := by
        rw [hW.ownEq t ht, hW.ownEq s hs, htp, htk]
      have := nodup_key_unique hW.nodupIds t ht s hs hto
      rw [this]
      exact hdead
    rw [h.2.2 s.parentId s.key hpk]
    exact count_push_ne _ (fun hc => HubEv.noConfusion hc)

/-- C1 as amended: `createDestroy`'s closure is unguarded, so each call to
`destroy()` publishes one Deregistration and one destruction notification; a
second call on an already-destroyed context re-emits both (so two calls
produce two of each, not one), but the re-emitted destruction notification
fires no cascade handler: the fan-out returns with the hub unchanged beyond
the two publications, because every subscription it could reach was already
cancelled by the first call. -/
theorem claim_C1_amended (fuel : Nat) (st : SysState) (P : DSub)
    (hW : WFS st) (hall : ∀ s ∈ st.subs, s.alive = true) (hP : P ∈ st.subs)
    (hfuel : aliveCount st + 1 ≤ fuel) :
    ∃ st1, createDestroyCall fuel P.parentId P.key P.ownId st = some st1 ∧
      (HubEv.dereg P.parentId P.key) ∈ st1.log ∧
      (HubEv.destroyed P.ownId) ∈ st1.log ∧
      createDestroyCall fuel P.parentId P.key P.ownId st1 =
        some (pushLog (HubEv.destroyed P.ownId)
          (pushLog (HubEv.dereg P.parentId P.key) st1)) ∧
      (pushLog (HubEv.destroyed P.ownId)
          (pushLog (HubEv.dereg P.parentId P.key) st1)).log.count
            (HubEv.dereg P.parentId P.key) =
        st1.log.count (HubEv.dereg P.parentId P.key) + 1 ∧
      (pushLog (HubEv.destroyed P.ownId)
          (pushLog (HubEv.dereg P.parentId P.key) st1)).log.count
            (HubEv.destroyed P.ownId) =
        st1.log.count (HubEv.destroyed P.ownId) + 1 := by
  have hW0 : WFS (pushLog (.dereg P.parentId P.key) st) :=
    ⟨hW.ownEq, hW.nodupIds, hW.childrenAfter⟩
  have hGB0 : GoodBelow P.ownId (pushLog (.dereg P.parentId P.key) st) :=
    goodBelow_of_all_alive hall
  rcases publishDestruction_main fuel P.ownId (pushLog (.dereg P.parentId P.key) st)
      hW0 hGB0 hfuel with ⟨st1, hrun, out⟩
  have hod1 : ownerDead P.ownId st1 := out.killed (List.mem_map_of_mem DSub.ownId hP)
  have hch1 : ∀ s1 ∈ st1.subs, s1.parentId = P.ownId → s1.alive = false := by
    intro s1 hs1 hp1
    rcases forall₂_mem_left out.mono.1 s1 hs1 with ⟨sorig, hsorig, hrel⟩
    have hporig : sorig.parentId = P.ownId := hrel.2.1.symm.trans hp1
    have hsub := out.cascade sorig hsorig hporig (hall sorig hsorig)
      (List.mem_map_of_mem DSub.ownId hsorig)
    exact hsub.1 s1 hs1 hrel.1
  have hquiet : createDestroyCall fuel P.parentId P.key P.ownId st1 =
      some (pushLog (HubEv.destroyed P.ownId)
        (pushLog (HubEv.dereg P.parentId P.key) st1)) := by
    show publishDestruction fuel P.ownId (pushLog (HubEv.dereg P.parentId P.key) st1) = _
    unfold publishDestruction
    cases fuel with
    | zero => omega
    | succ g =>
      show deliverStep (deliverFuel g) P.ownId _ _ = _
      exact deliver_quiet g _ P.ownId
        (pushLog (HubEv.destroyed P.ownId) (pushLog (HubEv.dereg P.parentId P.key) st1))
        hch1 hod1
  refine ⟨st1, hrun, mono_log_mem out.mono
      (List.mem_cons_of_mem _ (List.mem_cons_self _ _)),
    mono_log_mem out.mono (List.mem_cons_self _ _), hquiet, ?_, ?_⟩
  · show ((HubEv.destroyed P.ownId) :: (HubEv.dereg P.parentId P.key) :: st1.log).count
        (HubEv.dereg P.parentId P.key) = st1.log.count (HubEv.dereg P.parentId P.key) + 1
    rw [count_push_ne _ (fun hc => HubEv.noConfusion hc), List.count_cons_self]
  · show ((HubEv.destroyed P.ownId) :: (HubEv.dereg P.parentId P.key) :: st1.log).count
        (HubEv.destroyed P.ownId) = st1.log.count (HubEv.destroyed P.ownId) + 1
    rw [List.count_cons_self, count_push_ne _ (fun hc => HubEv.noConfusion hc)]

/-- C3 as amended: a call to `dispatch` on a destroyed context still publishes
a dispatching-action notification addressed to the parent, exactly as when
live — the dispatch closure consults no liveness state, so destruction has an
observable downstream effect through it; what destruction does cancel is only
the context's mirroring of inbound dispatch notifications addressed to it. -/
theorem claim_C3_amended (contextId parentContextId : String) (a : ActionM) (r : Bool)
    (st : SysState) (hdead : ownerDead contextId st) :
    (createDispatchCall contextId parentContextId a r st).log =
      HubEv.dispatched (createDispatch contextId parentContextId a r) :: st.log ∧
    (createDispatchCall contextId parentContextId a r st).log ≠ st.log ∧
    (∀ n : DispatchNotif,
      setupActionDispatchingStep contextId parentContextId false n = none) := by
  refine ⟨rfl, ?_, ?_⟩
  · intro h
    have h2 : HubEv.dispatched (createDispatch contextId parentContextId a r) :: st.log =
        st.log := h
    have := congrArg List.length h2
    simp at this
  · intro n
    simp [setupActionDispatchingStep]

/-- Single live context `root.a` (key `a` under external parent `root`). -/
def c1st : SysState :=
  { subs := [{ ownId := "root.a", parentId := "root", key := "a", alive := true }], log := [] }

def c1P : DSub := { ownId := "root.a", parentId := "root", key := "a", alive := true }

def c1run1 : Option SysState := createDestroyCall 3 "root" "a" "root.a" c1st

def c1st1 : SysState := c1run1.getD c1st

def c1run2 : Option SysState := createDestroyCall 3 "root" "a" "root.a" c1st1

def c1st2 : SysState := c1run2.getD c1st

/-- C1 counterexample: calling `destroy()` twice on the same context publishes
two Deregistration state-reports and two destruction notifications, not
exactly one of each, and the second call does emit notifications. -/
theorem claim_C1_counterexample :
    c1run1 = some c1st1 ∧ c1run2 = some c1st2 ∧
    c1st2.log.count (HubEv.dereg "root" "a") = 2 ∧
    c1st2.log.count (HubEv.destroyed "root.a") = 2 ∧
    ¬(c1st2.log.count (HubEv.dereg "root" "a") = 1 ∧
      c1st2.log.count (HubEv.destroyed "root.a") = 1) ∧
    c1st2.log ≠ c1st1.log := by decide

theorem c1st_wfs : WFS c1st := by
  refine ⟨by decide, by decide, ?_⟩
  intro s hs
  have hs' : s = c1P := by simpa [c1st, c1P] using hs
  subst hs'
  exact ⟨[], [], by decide, by decide⟩

theorem claim_C1_witness :
    WFS c1st ∧ (∀ s ∈ c1st.subs, s.alive = true) ∧ c1P ∈ c1st.subs ∧
      aliveCount c1st + 1 ≤ 3 ∧
      (∃ st1, createDestroyCall 3 c1P.parentId c1P.key c1P.ownId c1st = some st1 ∧
        (HubEv.dereg c1P.parentId c1P.key) ∈ st1.log ∧
        (HubEv.destroyed c1P.ownId) ∈ st1.log ∧
        createDestroyCall 3 c1P.parentId c1P.key c1P.ownId st1 =
          some (pushLog (HubEv.destroyed c1P.ownId)
            (pushLog (HubEv.dereg c1P.parentId c1P.key) st1)) ∧
        (pushLog (HubEv.destroyed c1P.ownId)
            (pushLog (HubEv.dereg c1P.parentId c1P.key) st1)).log.count
              (HubEv.dereg c1P.parentId c1P.key) =
          st1.log.count (HubEv.dereg c1P.parentId c1P.key) + 1 ∧
        (pushLog (HubEv.destroyed c1P.ownId)
            (pushLog (HubEv.dereg c1P.parentId c1P.key) st1)).log.count
              (HubEv.destroyed c1P.ownId) =
          st1.log.count (HubEv.destroyed c1P.ownId) + 1) :=
  ⟨c1st_wfs, by decide, by decide, by decide,
    claim_C1_amended 3 c1st c1P c1st_wfs (by decide) (by decide) (by decide)⟩

/-- A three-level chain: `r.p` with child `r.p.c` and grandchild `r.p.c.g`. -/
def c2A : DSub := { ownId := "r.p", parentId := "r", key := "p", alive := true }

def c2B : DSub := { ownId := "r.p.c", parentId := "r.p", key := "c", alive := true }

def c2C : DSub := { ownId := "r.p.c.g", parentId := "r.p.c", key := "g", alive := true }

def c2st : SysState := { subs := [c2A, c2B, c2C], log := [] }

theorem c2st_wfs : WFS c2st := by
  refine ⟨by decide, by decide, ?_⟩
  intro s hs
  have hs' : s = c2A ∨ s = c2B ∨ s = c2C := by simpa [c2st] using hs
  rcases hs' with rfl | rfl | rfl
  · exact ⟨[], ["r.p.c", "r.p.c.g"], by decide, by decide⟩
  · exact ⟨["r.p"], ["r.p.c.g"], by decide, by decide⟩
  · exact ⟨["r.p", "r.p.c"], [], by decide, by decide⟩

theorem claim_C2_witness :
    WFS c2st ∧ (∀ s ∈ c2st.subs, s.alive = true) ∧ c2A ∈ c2st.subs ∧
      aliveCount c2st + 1 ≤ 5 ∧
      ((∃ st', createDestroyCall 5 c2A.parentId c2A.key c2A.ownId c2st = some st' ∧
        ((HubEv.destroyed c2A.ownId) ∈ st'.log ∧ ownerDead c2A.ownId st') ∧
        (∀ d, DescIn (skel c2st) c2A.ownId d →
          (HubEv.destroyed d) ∈ st'.log ∧ ownerDead d st')) ∧
      (∀ (bb : BB) (s : SubjState) (evs : List HEvent),
        s.alive = false → (runSubjFrom bb s evs).2 = [])) :=
  ⟨c2st_wfs, by decide, by decide, by decide,
    claim_C2 5 c2st c2A c2st_wfs (by decide) (by decide) (by decide)⟩

/-- Parent `root.p` with child `root.p.c`, both live. -/
def c3P : DSub := { ownId := "root.p", parentId := "root", key := "p", alive := true }

def c3C : DSub := { ownId := "root.p.c", parentId := "root.p", key := "c", alive := true }

def c3st : SysState := { subs := [c3P, c3C], log := [] }

def c3run1 : Option SysState := createDestroyCall 4 "root.p" "c" "root.p.c" c3st

def c3st1 : SysState := c3run1.getD c3st

/-- C3 counterexample: after `root.p.c` is destroyed, calling its `dispatch`
still publishes a dispatching-action notification — an observable emission on
the hub — so dispatching to a destroyed context is not effect-free. -/
theorem claim_C3_counterexample :
    c3run1 = some c3st1 ∧
    ownerDead "root.p.c" c3st1 ∧
    (createDispatchCall "root.p.c" "root.p" actW false c3st1).log ≠ c3st1.log ∧
    (createDispatchCall "root.p.c" "root.p" actW false c3st1).log =
      HubEv.dispatched { parentContextId := "root.p", action := actW } :: c3st1.log := by
  decide

theorem claim_C3_witness :
    ownerDead "root.p.c" c3st1 ∧
      ((createDispatchCall "root.p.c" "root.p" actW false c3st1).log =
        HubEv.dispatched (createDispatch "root.p.c" "root.p" actW false) :: c3st1.log ∧
      (createDispatchCall "root.p.c" "root.p" actW false c3st1).log ≠ c3st1.log ∧
      (∀ n : DispatchNotif,
        setupActionDispatchingStep "root.p.c" "root.p" false n = none)) :=
  ⟨by decide, claim_C3_amended "root.p.c" "root.p" actW false c3st1 (by decide)⟩

/-- A context `root.a` that is already destroyed (subscriptions closed, its
Deregistration and destruction notification in the history). -/
def c10s : DSub := { ownId := "root.a", parentId := "root", key := "a", alive := false }

def c10st : SysState :=
  { subs := [c10s], log := [HubEv.destroyed "root.a", HubEv.dereg "root" "a"] }

def c10run : Option SysState := publishDestruction 3 "root" c10st

def c10st1 : SysState := c10run.getD c10st

theorem c10st_wfs : WFS c10st := by
  refine ⟨by decide, by decide, ?_⟩
  intro s hs
  have hs' : s = c10s := by simpa [c10st] using hs
  subst hs'
  exact ⟨[], [], by decide, by decide⟩

theorem claim_C10_witness :
    WFS c10st ∧ c10s ∈ c10st.subs ∧ c10s.alive = false ∧
      publishDestruction 3 c10s.parentId c10st = some c10st1 ∧
      (c10st1.log.count (HubEv.destroyed c10s.ownId) =
          c10st.log.count (HubEv.destroyed c10s.ownId) ∧
        c10st1.log.count (HubEv.dereg c10s.parentId c10s.key) =
          c10st.log.count (HubEv.dereg c10s.parentId c10s.key)) :=
  ⟨c10st_wfs, by decide, by decide, by decide,
    claim_C10 3 c10st c10st1 c10s c10st_wfs (by decide) (by decide) (by decide)⟩
